import Mathlib

/-
Verification of the duncancmt/shamir repository against its specification.

The Python sources are shallowly embedded as executable Lean definitions:

* `gf.py` — `BinaryPolynomial` stores an unbounded Python `int`, embedded as
  `ℕ`.  Its arithmetic (`__mul__` carry-less multiply, `__divmod__` long
  division, `__invert__` extended GCD) is embedded bit-for-bit.  The Python
  `while` loops are embedded as structural recursion on an explicit
  iteration bound (`fuel`); each wrapper passes a bound that provably
  dominates the number of iterations of the source loop, so the embedded
  function agrees with the loop on every input.  Proofs relate the bit-field
  operations to `Polynomial (ZMod 2)` via the interpretation `natToPoly`.

* `bip39.py` — characters are embedded as `ℕ` code points, strings as
  `List ℕ`, and word lists as `List (List ℕ)` with the lexicographic order
  (Python string comparison is lexicographic on code points).  The wordlist
  file `bip-0039.txt` is not among the sources; theorems abstract over any
  word list satisfying the source's own `assert`s (2048 entries, sorted;
  NFKD-normalisation, which the source asserts is the identity on the list,
  is modelled as the identity).  SHA-256 is external (`hashlib`) and is
  modelled as an abstract function `sha : List ℕ → ℕ → ℕ` returning the
  big-endian integer of the first `n` digest bytes, constrained only by
  `sha e n < 2^(8*n)`.

* `shamir.py` — the module is generic over the field element type `GFE`:
  it touches field elements only through their arithmetic, equality, and
  the hash functions.  It is embedded over an abstract `Field F` together
  with three abstract parameters: `ι : ℕ → F` models `GFE.coerce` on
  integer x-coordinates, `hashPair` models `_hash_pair` (SHAKE-256 of
  `0xff ‖ modulus bytes ‖ bytes(a) ‖ bytes(b)`), and `hashList` models
  `_hash_list` (SHAKE-256 of `0xaa ‖ …`) composed with `coerce`.  The
  SHAKE-256 coefficient stream that `split` derives from the secret, salt,
  `k` and `n` is modelled as an arbitrary list `rs` of field elements;
  quantifying over `rs` covers every secret/salt combination.

Python exceptions are embedded as `Option`/`Except` error values.
-/

/-! ## gf.py — binary polynomials as bit-fields -/

/-- Embeds Python `int.bit_length()`.  The source computes it on the
bit-field representation of a `BinaryPolynomial`.  The recursion
`n ↦ n / 2` terminates after at most `n` steps, so `n` itself is passed as
the structural iteration bound. -/
def bitLenAux : ℕ → ℕ → ℕ
  | 0, _ => 0
  | fuel + 1, n => if n = 0 then 0 else bitLenAux fuel (n / 2) + 1

/-- Python `int.bit_length()`: the position of the highest set bit plus one. -/
def bitLen (n : ℕ) : ℕ := bitLenAux n n

/-- Embeds `BinaryPolynomial.__mul__`: carry-less (GF(2)[X]) multiplication.
The source loop `while b: if b & 1: p ^= a; b >>= 1; a <<= 1` halves `b`
each iteration, hence runs at most `b` times; `clmul` passes `b` as the
structural iteration bound. -/
def clmulAux : ℕ → ℕ → ℕ → ℕ
  | 0, _, _ => 0
  | fuel + 1, a, b =>
    if b = 0 then 0
    else (if b % 2 = 1 then a else 0) ^^^ clmulAux fuel (2 * a) (b / 2)

/-- Carry-less multiplication of bit-fields, `BinaryPolynomial.__mul__`. -/
def clmul (a b : ℕ) : ℕ := clmulAux b a b

/-- Embeds the loop of `BinaryPolynomial.__divmod__`: long division of
binary polynomials.  Source: `while r.bit_length() >= d.bit_length():
shift = ...; q ^= 1 << shift; r ^= d << shift`.  For a non-zero divisor
the remainder strictly decreases each iteration, so the loop runs at most
`r + 1` times; the wrappers pass `a + 1` as the structural bound.  (For a
zero divisor the source raises `ZeroDivisionError` before the loop; no
caller in the sources divides by zero.) -/
def divModAux : ℕ → ℕ → ℕ → ℕ → ℕ × ℕ
  | 0, _, q, r => (q, r)
  | fuel + 1, d, q, r =>
    if bitLen d ≤ bitLen r ∧ d ≠ 0 then
      divModAux fuel d (q ^^^ (1 <<< (bitLen r - bitLen d))) (r ^^^ (d <<< (bitLen r - bitLen d)))
    else (q, r)

/-- Quotient of binary-polynomial division, `BinaryPolynomial.__floordiv__`. -/
def polyDiv (a b : ℕ) : ℕ := (divModAux (a + 1) b 0 a).1

/-- Remainder of binary-polynomial division, `BinaryPolynomial.__mod__`.
This also embeds the reduction `value % modulus` performed by the
`ModularBinaryPolynomial` constructor. -/
def polyMod (a b : ℕ) : ℕ := (divModAux (a + 1) b 0 a).2

/-- Embeds the loop of `ModularBinaryPolynomial.__invert__` (extended GCD
over binary polynomials).  Source: `while r_new: quotient = r // r_new;
r, r_new = r_new, r - quotient * r_new; t, t_new = t_new, t - quotient * t_new`
(where `-` is XOR and `*` is `clmul`).  `r_new` strictly decreases each
iteration, so the loop runs at most `r_new + 1` times; `gfInv` passes
`value + 1` as the structural bound.  Returns the final `(t, r)`. -/
def invLoopAux : ℕ → ℕ → ℕ → ℕ → ℕ → ℕ × ℕ
  | 0, t, _, r, _ => (t, r)
  | fuel + 1, t, tn, r, rn =>
    if rn = 0 then (t, r)
    else
      invLoopAux fuel tn (t ^^^ clmul (polyDiv r rn) tn) rn (r ^^^ clmul (polyDiv r rn) rn)

/-- Embeds `ModularBinaryPolynomial.__invert__`.  `value` is the already
reduced field element (`_value`), `m` the modulus.  `none` embeds the
`ZeroDivisionError("zero element or modulus is reducible")` raised when the
final GCD is not 1; otherwise the result is the Bézout coefficient `t`
reduced mod `m` (the constructor reduces). -/
def gfInv (value m : ℕ) : Option ℕ :=
  let p := invLoopAux (value + 1) 0 1 m value
  if p.2 ≠ 1 then none else some (polyMod p.1 m)

/-- Embeds `ModularBinaryPolynomial.__mul__` on reduced values:
`(self._value * other._value) % modulus`. -/
def gfMul (a b m : ℕ) : ℕ := polyMod (clmul a b) m

/-- Irreducibility of the bit-field `m` as a polynomial over GF(2),
expressed decidably over the source's `clmul`: `m` has degree at least 1
and no factorisation into two non-units.  (Any factor of `m` has bit
length at most `bitLen m`, so the bounded quantifier loses no generality;
this is proved, not assumed, in `natPolyIrreducible_irreducible`.) -/
def NatPolyIrreducible (m : ℕ) : Prop :=
  2 ≤ bitLen m ∧ ∀ a < 2 ^ bitLen m, ∀ b < 2 ^ bitLen m, clmul a b = m → a = 1 ∨ b = 1

instance (m : ℕ) : Decidable (NatPolyIrreducible m) := by
  unfold NatPolyIrreducible; infer_instance

/-- Interpretation of a bit-field as a polynomial over GF(2): bit `i` is
the coefficient of `X^i`.  Proof-side companion of the embedding. -/
noncomputable def natToPoly (n : ℕ) : Polynomial (ZMod 2) :=
  if h : n = 0 then 0
  else Polynomial.C ((n % 2 : ℕ) : ZMod 2) + Polynomial.X * natToPoly (n / 2)
termination_by n
decreasing_by exact Nat.div_lt_self (Nat.pos_of_ne_zero h) one_lt_two

/-! ## bip39.py — BIP-0039 codec -/

/-- Error values of `bip39.py`.  The first four embed the `ValueError`s the
source raises; `indexError` embeds the Python `IndexError` raised by
`wordlist[i]` when `bisect_left` returns `len(wordlist)`. -/
inductive Bip39Error where
  | invalidLength
  | invalidWord
  | ambiguousWord
  | badChecksum
  | indexError
  deriving DecidableEq

/-- Big-endian `int.from_bytes(bs, "big")`. -/
def intFromBytes (bs : List ℕ) : ℕ := bs.foldl (fun acc b => acc * 256 + b) 0

/-- Big-endian `n.to_bytes(len, "big")`.  (Python raises `OverflowError`
when `n` does not fit; every use below is proved in range.) -/
def intToBytes : ℕ → ℕ → List ℕ
  | 0, _ => []
  | l + 1, n => intToBytes l (n / 256) ++ [n % 256]

/-- Embeds `bip39._checksum`.  `sha e n` models the big-endian integer of
the first `n` bytes of the SHA-256 digest of the byte string `e`
(`int.from_bytes(sha256(e).digest()[:n], "big")`); SHA-256 itself is
external library code and is kept abstract. -/
def bipChecksum (sha : List ℕ → ℕ → ℕ) (entropy : List ℕ) : ℕ × ℕ :=
  let checksum_bits := entropy.length / 4
  let checksum_bytes := (checksum_bits + 7) / 8
  (sha entropy checksum_bytes >>> (checksum_bytes * 8 - checksum_bits), checksum_bits)

/-- Embeds `sep.join(result)` for the default separator, a single space
(code point 32). -/
def sjoin : List (List ℕ) → List ℕ
  | [] => []
  | [t] => t
  | t :: ts => t ++ 32 :: sjoin ts

/-- Embeds Python `str.split(" ")` (with an explicit separator: empty
segments are preserved, and splitting the empty string yields one empty
segment). -/
def ssplit (s : List ℕ) : List (List ℕ) :=
  s.foldr (fun c acc => if c = 32 then [] :: acc else (c :: acc.headI) :: acc.tail) [[]]

/-- Models the Python standard library's `bisect.bisect_left(ws, w)` on a
sorted list: the index of the first entry that is not less than `w`
(equivalently, the number of leading entries below `w`).  `bisect` is
external library code; this is its documented result on sorted input,
which the source guarantees by assertion. -/
def bisectLeft (ws : List (List ℕ)) (w : List ℕ) : ℕ :=
  (ws.takeWhile (fun u => decide (u < w))).length

/-- Embeds the per-token body of the word loop of `bip39.decode`:
`i = bisect_left(wordlist, word)` followed by the prefix and ambiguity
checks.  `wordlist[i]` raises `IndexError` when `i = len(wordlist)`
(a token sorting after every entry); the source does not handle this. -/
def decodeWord (ws : List (List ℕ)) (w : List ℕ) : Except Bip39Error ℕ :=
  match ws[bisectLeft ws w]? with
  | none => .error .indexError
  | some wi =>
    if ¬ w.isPrefixOf wi then .error .invalidWord
    else if wi ≠ w ∧ (ws[bisectLeft ws w + 1]?).any (fun wn => w.isPrefixOf wn) then
      .error .ambiguousWord
    else .ok (bisectLeft ws w)

/-- Embeds the big-endian reassembly of `bip39.decode`:
`reduce(or_, map(lshift, reversed(raw), range(0, (len(raw)-1)*11+1, 11)))`.
(`reduce` without initialiser on a non-empty list equals a fold from 0
because `0 ||| x = x`.) -/
def reassemble (raw : List ℕ) : ℕ :=
  (List.zipWith (fun d sh => d <<< sh) raw.reverse
    ((List.range raw.length).map (fun j => j * 11))).foldl (fun a b => a ||| b) 0

/-- The tail of `bip39.decode` after the word-lookup loop: word-count
check, big-endian reassembly, entropy extraction and checksum check. -/
def bip39DecodeRaw (sha : List ℕ → ℕ → ℕ) (raw : List ℕ) :
    Except Bip39Error (List ℕ) :=
  if ¬ (raw.length = 12 ∨ raw.length = 15 ∨ raw.length = 18 ∨ raw.length = 21 ∨
        raw.length = 24) then
    .error .invalidLength
  else if reassemble raw &&& ((1 <<< (raw.length / 3)) - 1) ≠
      (bipChecksum sha (intToBytes ((raw.length * 11 - raw.length / 3) / 8)
        (reassemble raw >>> (raw.length / 3)))).1 then
    .error .badChecksum
  else
    .ok (intToBytes ((raw.length * 11 - raw.length / 3) / 8)
      (reassemble raw >>> (raw.length / 3)))

/-- Embeds `bip39.decode`.  NFKD normalisation is modelled as the identity:
the source asserts every wordlist entry is NFKD-normalised, and the
separator and mnemonic alphabet are NFKD-fixed ASCII.  The per-word loop
(which propagates the first offending token's error) is `mapM`; the rest
is `bip39DecodeRaw`. -/
def bip39Decode (ws : List (List ℕ)) (sha : List ℕ → ℕ → ℕ) (s : List ℕ) :
    Except Bip39Error (List ℕ) :=
  match (ssplit s).mapM (decodeWord ws) with
  | .error e => .error e
  | .ok raw => bip39DecodeRaw sha raw

/-- Embeds the word-emitting loop of `bip39.encode`: for
`i = num_words-1 … 0` emit `wordlist[(to_encode >> (i*11)) & 2047]`.
The subscript is in range whenever the word list has 2048 entries. -/
def encodeWords (ws : List (List ℕ)) (toEncode numWords : ℕ) : List (List ℕ) :=
  (List.range numWords).map
    (fun j => ws.getD ((toEncode >>> ((numWords - 1 - j) * 11)) &&& 2047) [])

/-- Embeds `bip39.encode` with the default separator (which passes the
NFKD check of the source, modelled as the identity). -/
def bip39Encode (ws : List (List ℕ)) (sha : List ℕ → ℕ → ℕ) (entropy : List ℕ) :
    Except Bip39Error (List ℕ) :=
  if entropy.length = 16 ∨ entropy.length = 20 ∨ entropy.length = 24 ∨
     entropy.length = 28 ∨ entropy.length = 32 then
    let num_words := entropy.length * 3 / 4
    let p := bipChecksum sha entropy
    let to_encode := (intFromBytes entropy <<< p.2) ||| p.1
    .ok (sjoin (encodeWords ws to_encode num_words))
  else .error .invalidLength

/-- Concrete 2048-entry strictly sorted word list used by witnesses (one
one-character word per code point 256…2303; none contains the separator). -/
def wsW : List (List ℕ) := (List.range 2048).map (fun n => [n + 256])

/-- Concrete stand-in for the abstract SHA-256 of the witnesses. -/
def shaW : List ℕ → ℕ → ℕ := fun _ _ => 0

/-! ## shamir.py — verifiable Shamir secret sharing over an abstract field

`FiniteFieldPolynomial` is embedded as `List F` of coefficients in the
source's big-endian (high-to-low) order. -/

section ShamirDefs

variable {F : Type} [Field F] [DecidableEq F] {B : Type} [DecidableEq B]
variable (iota : ℕ → F) (hashPair : F → F → B) (hashList : List B → F)

/-- Embeds `FiniteFieldPolynomial.__add__`: coefficient-wise addition with
right alignment.  Note the Python slice semantics for an empty addend:
`a[:-0]` is `a[:0] = []` and `map(add, a[-0:], b)` zips with the empty
list, so adding a zero-length polynomial yields a zero-length result. -/
def ffAdd (x y : List F) : List F :=
  let a := if y.length > x.length then y else x
  let b := if y.length > x.length then x else y
  if b.length = 0 then []
  else a.take (a.length - b.length) ++
    List.zipWith (fun u v => u + v) (a.drop (a.length - b.length)) b

/-- Embeds `FiniteFieldPolynomial.__mul__` / `__rmul__`: multiplication of
every coefficient by a constant. -/
def ffMul (r : F) (p : List F) : List F := p.map (fun c => r * c)

/-- Embeds `FiniteFieldPolynomial.__call__`: Horner evaluation
`reduce(lambda accum, coeff: accum * x + coeff, self)` over the high-to-low
coefficients.  (On a zero-length polynomial the source's `reduce` raises;
no caller evaluates one, and the `[]` case here is an arbitrary total
completion.) -/
def ffEval (p : List F) (x : F) : F :=
  match p with
  | [] => 0
  | c :: cs => cs.foldl (fun accum coeff => accum * x + coeff) c

/-- Embeds the inner loop of `FiniteFieldPolynomial._basis_poly` that
multiplies the coefficient list `old` by `(X - x_j)`:
`new = [0]; for coeff in old: new[-1] += coeff; new.append(-x_j * coeff)`.
`last` is the running last element of `new`. -/
def mulLinearAux (xj : F) : List F → F → List F
  | [], last => [last]
  | coeff :: cs, last => (last + coeff) :: mulLinearAux xj cs (-xj * coeff)

/-- Multiplication of a high-to-low coefficient list by `(X - x_j)`. -/
def mulLinear (xj : F) (old : List F) : List F := mulLinearAux xj old 0

/-- Embeds `FiniteFieldPolynomial._basis_poly`: the Lagrange basis
polynomial through `point`, scaled by its y-coordinate.  Points whose
x-coordinate equals `point`'s are skipped, exactly as the source's
`if x_j == x_i: continue`. -/
def basisPoly (point : F × F) (points : List (F × F)) : List F :=
  let others := points.filter (fun q => decide (q.1 ≠ point.1))
  let denom := others.foldl (fun acc q => acc * (point.1 - q.1)) 1
  others.foldl (fun old q => mulLinear q.1 old) [point.2 / denom]

/-- Embeds `FiniteFieldPolynomial.from_points`:
`reduce(operator.add, (basis_poly(p, points) for p in points))`.
(`reduce` raises on an empty iterable; recover never passes one in the
verified paths, and `[]` is an arbitrary total completion.) -/
def fromPoints (points : List (F × F)) : List F :=
  match points.map (fun p => basisPoly p points) with
  | [] => []
  | b :: bs => bs.foldl ffAdd b

/-- Embeds `shamir.split`.  `secret` is the secret tuple `(m_1)` or
`(m_1, m_2)`, and `rs` models the SHAKE-256 stream of
`2*k - len(secret)` derived field elements (see the module comment).
`none` embeds the two precondition `ValueError`s.  The result is
`(f_values, v, c, s)`. -/
def shamirSplit (secret : List F) (k n : ℕ) (rs : List F) :
    Option (List F × List B × List F × List ℕ) :=
  if k < secret.length then none
  else if n < k then none
  else
    let f := secret.drop 1 ++ rs.take (k - secret.length) ++ secret.take 1
    let g := rs.drop (k - secret.length)
    let fValues := (List.range n).map (fun i => ffEval f (iota (i + 1)))
    let gValues := (List.range n).map (fun i => ffEval g (iota (i + 1)))
    let v := List.zipWith hashPair fValues gValues
    let c := ffAdd (ffMul (hashList v) f) g
    some (fValues, v, c,
      (c.length - 1) :: (if 1 < secret.length then [0] else []))

/-- Embeds the loop of `shamir.verify`: iterate over `zip(count(1), v)`,
remembering the matching x-coordinate in `result` (an `int`, initially 0)
and returning 0 the moment a second match appears. -/
def verifyAux (y z : F) (c : List F) : List B → ℕ → ℕ → ℕ
  | [], _, result => result
  | vi :: rest, x, result =>
    if vi = hashPair y (ffEval c (iota x) - z) then
      (if result ≠ 0 then 0 else verifyAux y z c rest (x + 1) x)
    else verifyAux y z c rest (x + 1) result

/-- Embeds `shamir.verify`: returns the x-coordinate of the alleged share
`y` (coerced into the field, like the source's `y_f.coerce(result)`), or
zero if no — or more than one — commitment matches. -/
def shamirVerify (y : F) (v : List B) (c : List F) : F :=
  iota (verifyAux iota hashPair y (hashList v * y) c v 1 0)

/-- Specification-side companion of `shamirVerify` for the `verify`
semantics claim: the list of x-coordinates `x ∈ {1, …, len(v)}` at which
`v_x = H(y, c(x) - z)` with `z = hashList v * y`. -/
def matchesFrom (y z : F) (c : List F) : List B → ℕ → List ℕ
  | [], _ => []
  | vi :: rest, x =>
    (if vi = hashPair y (ffEval c (iota x) - z) then [x] else []) ++
      matchesFrom y z c rest (x + 1)

/-- The matching x-coordinates of an alleged share against metadata. -/
def matchList (y : F) (v : List B) (c : List F) : List ℕ :=
  matchesFrom iota hashPair y (hashList v * y) c v 1

/-- Embeds `set.add` on the accepted-shares set, realised as an
insertion-ordered duplicate-free list. -/
def insertPair (g : List (F × F)) (p : F × F) : List (F × F) :=
  if p ∈ g then g else g ++ [p]

/-- Embeds the share-collection loop of `shamir.recover`: verify each
share, filing it into the accepted set or the rejected list, stopping
early once the accepted set has `len(c)` elements.  Returns the final
`(good_shares, bad_shares)`. -/
def recoverLoop (v : List B) (c : List F) :
    List F → List (F × F) → List F → List (F × F) × List F
  | [], good, bad => (good, bad)
  | y :: rest, good, bad =>
    let x := shamirVerify iota hashPair hashList y v c
    let p := if x = 0 then (good, bad ++ [y])
             else (insertPair good (x, y), bad)
    if p.1.length = c.length then p else recoverLoop v c rest p.1 p.2

/-- One step of accepted-share collection: file share `y` into the
accepted set `g` if `verify` accepts it.  Specification-side companion
for the `recover` error contract. -/
def acceptStep (v : List B) (c : List F) (g : List (F × F)) (y : F) : List (F × F) :=
  if shamirVerify iota hashPair hashList y v c = 0 then g
  else insertPair g (shamirVerify iota hashPair hashList y v c, y)

/-- The set of distinct `(x, y)` pairs accepted by `verify` over the whole
share list (no early stop). -/
def acceptedPairs (shares : List F) (v : List B) (c : List F) : List (F × F) :=
  shares.foldl (acceptStep iota hashPair hashList v c) []

/-- Embeds `shamir.recover`.  `.error bad` embeds
`ValueError("Too few valid shares. Invalid shares:", bad_shares)`; the
success value is the tuple of interpolated coefficients selected by `s`.
(The source's `poly[i]` raises on an out-of-range index; every verified
call path keeps `s` in range, and `getD _ 0` is an arbitrary total
completion.) -/
def shamirRecover (shares : List F) (v : List B) (c : List F) (s : List ℕ) :
    Except (List F) (List F) :=
  let p := recoverLoop iota hashPair hashList v c shares [] []
  if p.1.length < c.length then .error p.2
  else .ok (s.map (fun i => (fromPoints p.1).getD i 0))

/-- Embeds `main.verify` (the CLI `verify` subcommand): call
`shamir.verify` and exit 1 if it raises `ValueError`, else exit 0.  For a
share in the same field as the metadata, `shamir.verify` is total — it
signals an invalid share by returning zero, not by raising — so the
`except ValueError` branch is unreachable and the function always returns
exit status 0. -/
def mainVerify (share : F) (v : List B) (c : List F) : ℕ :=
  let _x := shamirVerify iota hashPair hashList share v c
  0

end ShamirDefs

/-- Interpretation of a high-to-low coefficient list as a polynomial:
`listToPoly [a_d, …, a_0] = a_d X^d + … + a_0`.  Proof-side companion of
the `FiniteFieldPolynomial` embedding. -/
noncomputable def listToPoly {F : Type} [Field F] (l : List F) : Polynomial F :=
  l.foldl (fun p c => p * Polynomial.X + Polynomial.C c) 0

/-! ## Theorems -/

set_option linter.unusedSectionVars false

section ShamirBasic

variable {F : Type} [Field F] [DecidableEq F] {B : Type} [DecidableEq B]
variable (iota : ℕ → F) (hashPair : F → F → B) (hashList : List B → F)

/-- C9: the zero-length `FiniteFieldPolynomial` is absorbing, not an
identity, for polynomial addition: adding it on either side yields the
zero-length polynomial, not the other operand. -/
theorem ffAdd_nil_absorbing (p : List F) :
    ffAdd p ([] : List F) = [] ∧ ffAdd ([] : List F) p = [] := by
  constructor
  · simp [ffAdd]
  · cases p <;> simp [ffAdd]

/-- C8: Shamir 1-of-1 identity: for every secret `m` and every derived
coefficient stream, the single share returned by
`split((m,), 1, 1, salt)` is `m` itself.  (The SHAKE-256 stream derived
from the secret and salt is the abstract `rs`; quantifying over `rs`
covers `salt = 0` in particular.) -/
theorem shamir_one_of_one (m : F) (rs : List F) :
    (shamirSplit iota hashPair hashList [m] 1 1 rs).map (fun out => out.1) =
      some [m] := by
  simp [shamirSplit, ffEval, List.range_succ]

end ShamirBasic

section VerifySemantics

variable {F : Type} [Field F] [DecidableEq F] {B : Type} [DecidableEq B]
variable (iota : ℕ → F) (hashPair : F → F → B) (hashList : List B → F)

theorem verifyAux_of_ne_zero (y z : F) (c : List F) :
    ∀ (l : List B) (x r : ℕ), r ≠ 0 →
      verifyAux iota hashPair y z c l x r =
        if matchesFrom iota hashPair y z c l x = [] then r else 0 := by
  intro l
  induction l with
  | nil => intro x r _; simp [verifyAux, matchesFrom]
  | cons vi rest ih =>
    intro x r hr
    by_cases hc : vi = hashPair y (ffEval c (iota x) - z)
    · simp [verifyAux, matchesFrom, hc, hr]
    · simpa [verifyAux, matchesFrom, hc] using ih (x + 1) r hr

theorem verifyAux_zero_eq (y z : F) (c : List F) :
    ∀ (l : List B) (x : ℕ), 1 ≤ x →
      verifyAux iota hashPair y z c l x 0 =
        (match matchesFrom iota hashPair y z c l x with
         | [] => 0
         | [m] => m
         | _ => 0) := by
  intro l
  induction l with
  | nil => intro x _; simp [verifyAux, matchesFrom]
  | cons vi rest ih =>
    intro x hx
    by_cases hc : vi = hashPair y (ffEval c (iota x) - z)
    · have hx0 : x ≠ 0 := by omega
      simp only [verifyAux, matchesFrom, hc, if_true, ne_eq, not_true_eq_false,
        if_false, List.singleton_append]
      rw [verifyAux_of_ne_zero iota hashPair y z c rest (x + 1) x hx0]
      rcases hM : matchesFrom iota hashPair y z c rest (x + 1) with _ | ⟨a, M⟩
      · simp
      · simp
    · simp only [verifyAux, matchesFrom, hc, if_false, List.nil_append]
      exact ih (x + 1) (by omega)

/-- C4: semantics of `verify`.  With `z = hashList v * y` and the matching
x-coordinates `matchList y v c = [x ∈ 1..len(v) | v_x = H(y, c(x) - z)]`,
`verify` returns the single matching x-coordinate when exactly one
matches, and zero both when none matches and when two or more match.
(`iota 0 = 0` states that coercing the integer 0 yields the field's zero,
as it does in `gf.py`.) -/
theorem verify_semantics (y : F) (v : List B) (c : List F) (h0 : iota 0 = 0) :
    (matchList iota hashPair hashList y v c = [] →
      shamirVerify iota hashPair hashList y v c = 0) ∧
    (∀ x, matchList iota hashPair hashList y v c = [x] →
      shamirVerify iota hashPair hashList y v c = iota x) ∧
    (2 ≤ (matchList iota hashPair hashList y v c).length →
      shamirVerify iota hashPair hashList y v c = 0) := by
  have key := verifyAux_zero_eq iota hashPair y (hashList v * y) c v 1 le_rfl
  refine ⟨?_, ?_, ?_⟩
  · intro hM
    unfold shamirVerify
    rw [key]
    unfold matchList at hM
    rw [hM]
    exact h0
  · intro x hM
    unfold shamirVerify
    rw [key]
    unfold matchList at hM
    rw [hM]
  · intro hM
    unfold shamirVerify
    rw [key]
    unfold matchList at hM
    rcases hE : matchesFrom iota hashPair y (hashList v * y) c v 1 with _ | ⟨a, _ | ⟨b, M⟩⟩
    · exact h0
    · rw [hE] at hM; simp at hM
    · exact h0

end VerifySemantics


section RecoverContract

variable {F : Type} [Field F] [DecidableEq F] {B : Type} [DecidableEq B]
variable (iota : ℕ → F) (hashPair : F → F → B) (hashList : List B → F)
variable (v : List B) (c : List F)

theorem acceptStep_of_zero {y : F} (g : List (F × F))
    (hx : shamirVerify iota hashPair hashList y v c = 0) :
    acceptStep iota hashPair hashList v c g y = g := by
  simp [acceptStep, hx]

theorem acceptStep_of_ne_zero {y : F} (g : List (F × F))
    (hx : shamirVerify iota hashPair hashList y v c ≠ 0) :
    acceptStep iota hashPair hashList v c g y =
      insertPair g (shamirVerify iota hashPair hashList y v c, y) := by
  simp [acceptStep, hx]

theorem length_le_insertPair (g : List (F × F)) (p : F × F) :
    g.length ≤ (insertPair g p).length ∧ (insertPair g p).length ≤ g.length + 1 := by
  unfold insertPair; split <;> simp

theorem length_le_foldl_acceptStep :
    ∀ (shares : List F) (g : List (F × F)),
      g.length ≤ (shares.foldl (acceptStep iota hashPair hashList v c) g).length := by
  intro shares
  induction shares with
  | nil => intro g; simp
  | cons y rest ih =>
    intro g
    rw [List.foldl_cons]
    refine le_trans ?_ (ih _)
    by_cases hx : shamirVerify iota hashPair hashList y v c = 0
    · rw [acceptStep_of_zero iota hashPair hashList v c g hx]
    · rw [acceptStep_of_ne_zero iota hashPair hashList v c g hx]
      exact (length_le_insertPair g _).1

theorem foldl_acceptStep_le_filter :
    ∀ (shares : List F) (g : List (F × F)),
      (shares.foldl (acceptStep iota hashPair hashList v c) g).length ≤
      g.length +
        (shares.filter
          (fun y => decide (shamirVerify iota hashPair hashList y v c ≠ 0))).length := by
  intro shares
  induction shares with
  | nil => intro g; simp
  | cons y rest ih =>
    intro g
    by_cases hx : shamirVerify iota hashPair hashList y v c = 0
    · rw [List.foldl_cons, acceptStep_of_zero iota hashPair hashList v c g hx]
      have hfil : (y :: rest).filter
          (fun y => decide (shamirVerify iota hashPair hashList y v c ≠ 0)) =
          rest.filter
            (fun y => decide (shamirVerify iota hashPair hashList y v c ≠ 0)) := by
        simp [List.filter_cons, hx]
      rw [hfil]
      exact ih g
    · rw [List.foldl_cons, acceptStep_of_ne_zero iota hashPair hashList v c g hx]
      have hfil : (y :: rest).filter
          (fun y => decide (shamirVerify iota hashPair hashList y v c ≠ 0)) =
          y :: rest.filter
            (fun y => decide (shamirVerify iota hashPair hashList y v c ≠ 0)) := by
        simp [List.filter_cons, hx]
      rw [hfil]
      have h1 := ih (insertPair g (shamirVerify iota hashPair hashList y v c, y))
      have h2 := (length_le_insertPair g
        (shamirVerify iota hashPair hashList y v c, y)).2
      simp only [List.length_cons]
      omega

theorem recoverLoop_spec :
    ∀ (shares : List F) (good : List (F × F)) (bad : List F),
      (((recoverLoop iota hashPair hashList v c shares good bad).1.length < c.length) ↔
        ((shares.foldl (acceptStep iota hashPair hashList v c) good).length < c.length)) ∧
      ((recoverLoop iota hashPair hashList v c shares good bad).1.length < c.length →
        recoverLoop iota hashPair hashList v c shares good bad =
          (shares.foldl (acceptStep iota hashPair hashList v c) good,
           bad ++ shares.filter
            (fun y => decide (shamirVerify iota hashPair hashList y v c = 0)))) := by
  intro shares
  induction shares with
  | nil => intro good bad; simp [recoverLoop]
  | cons y rest ih =>
    intro good bad
    by_cases hx : shamirVerify iota hashPair hashList y v c = 0
    · have hfil : (y :: rest).filter
          (fun y => decide (shamirVerify iota hashPair hashList y v c = 0)) =
          y :: rest.filter
            (fun y => decide (shamirVerify iota hashPair hashList y v c = 0)) := by
        simp [List.filter_cons, hx]
      rw [List.foldl_cons, acceptStep_of_zero iota hashPair hashList v c good hx, hfil]
      by_cases hbreak : good.length = c.length
      · have hres : recoverLoop iota hashPair hashList v c (y :: rest) good bad =
            (good, bad ++ [y]) := by
          simp [recoverLoop, hx, hbreak]
        have hmono := length_le_foldl_acceptStep iota hashPair hashList v c rest good
        rw [hres]
        refine ⟨⟨fun h => by simp at h; omega, fun h => by simp; omega⟩, ?_⟩
        intro h; simp at h; omega
      · have hres : recoverLoop iota hashPair hashList v c (y :: rest) good bad =
            recoverLoop iota hashPair hashList v c rest good (bad ++ [y]) := by
          simp [recoverLoop, hx, hbreak]
        rw [hres]
        rcases ih good (bad ++ [y]) with ⟨ih1, ih2⟩
        refine ⟨ih1, ?_⟩
        intro h
        rw [ih2 h]
        simp
    · have hfil : (y :: rest).filter
          (fun y => decide (shamirVerify iota hashPair hashList y v c = 0)) =
          rest.filter
            (fun y => decide (shamirVerify iota hashPair hashList y v c = 0)) := by
        simp [List.filter_cons, hx]
      rw [List.foldl_cons, acceptStep_of_ne_zero iota hashPair hashList v c good hx, hfil]
      by_cases hbreak :
        (insertPair good (shamirVerify iota hashPair hashList y v c, y)).length = c.length
      · have hres : recoverLoop iota hashPair hashList v c (y :: rest) good bad =
            (insertPair good (shamirVerify iota hashPair hashList y v c, y), bad) := by
          simp [recoverLoop, hx, hbreak]
        have hmono := length_le_foldl_acceptStep iota hashPair hashList v c rest
          (insertPair good (shamirVerify iota hashPair hashList y v c, y))
        rw [hres]
        refine ⟨⟨fun h => by simp at h; omega, fun h => by simp; omega⟩, ?_⟩
        intro h; simp at h; omega
      · have hres : recoverLoop iota hashPair hashList v c (y :: rest) good bad =
            recoverLoop iota hashPair hashList v c rest
              (insertPair good (shamirVerify iota hashPair hashList y v c, y)) bad := by
          simp [recoverLoop, hx, hbreak]
        rw [hres]
        exact ih _ bad

/-- C5: error contract of `recover` (with `k = len(c)`).  If fewer than
`len(c)` of the given shares pass `verify` then `recover` fails with the
too-few-valid-shares error whose payload is exactly the list of shares
that failed verification; and it fails if and only if fewer than `len(c)`
distinct `(x, y)` pairs are accepted over the share list. -/
theorem recover_error_contract (shares : List F) (s : List ℕ) :
    ((shares.filter
        (fun y => decide (shamirVerify iota hashPair hashList y v c ≠ 0))).length <
          c.length →
      shamirRecover iota hashPair hashList shares v c s =
        .error (shares.filter
          (fun y => decide (shamirVerify iota hashPair hashList y v c = 0)))) ∧
    ((∃ e, shamirRecover iota hashPair hashList shares v c s = .error e) ↔
      (acceptedPairs iota hashPair hashList shares v c).length < c.length) := by
  rcases recoverLoop_spec iota hashPair hashList v c shares [] [] with ⟨h1, h2⟩
  have hacc : acceptedPairs iota hashPair hashList shares v c =
      shares.foldl (acceptStep iota hashPair hashList v c) [] := rfl
  constructor
  · intro hfew
    have hlt : (recoverLoop iota hashPair hashList v c shares [] []).1.length <
        c.length := by
      rw [h1]
      exact lt_of_le_of_lt
        (by simpa using foldl_acceptStep_le_filter iota hashPair hashList v c shares [])
        hfew
    unfold shamirRecover
    rw [if_pos hlt, h2 hlt]
    simp
  · unfold shamirRecover
    by_cases hlt : (recoverLoop iota hashPair hashList v c shares [] []).1.length <
        c.length
    · rw [if_pos hlt]
      constructor
      · intro _
        rw [hacc]
        exact h1.mp hlt
      · intro _
        exact ⟨_, rfl⟩
    · rw [if_neg hlt]
      constructor
      · rintro ⟨e, he⟩
        exact absurd he (by simp)
      · intro hcontra
        rw [hacc] at hcontra
        exact absurd (h1.mpr hcontra) hlt

end RecoverContract

/-- C7 (code bug, evaluated at the failing input): the CLI `verify`
subcommand exits 0 even for a share the core `verify` reports invalid.
Concretely, over GF(2) with an injective pair hash: `split((0,), 1, 1)`
yields metadata `v = [H(0,0)]`, `c = [0]`, and for the foreign share `1`
the core `verify` returns 0 (invalid) — yet `main.verify` returns exit
status 0, because `shamir.verify` signals invalidity by returning zero and
never raises the `ValueError` that `main.verify`'s `except` branch (the
only path to exit status 1) is waiting for. -/
theorem cli_verify_exit_zero_on_invalid_share :
    shamirSplit (fun n => (n : ZMod 2)) Prod.mk (fun _ => (1 : ZMod 2)) [0] 1 1 [0] =
      some ([0], [((0 : ZMod 2), (0 : ZMod 2))], [0], [0]) ∧
    shamirVerify (fun n => (n : ZMod 2)) Prod.mk (fun _ => (1 : ZMod 2)) 1
      [((0 : ZMod 2), (0 : ZMod 2))] [0] = 0 ∧
    mainVerify (fun n => (n : ZMod 2)) Prod.mk (fun _ => (1 : ZMod 2)) 1
      [((0 : ZMod 2), (0 : ZMod 2))] [0] = 0 := by
  refine ⟨by decide, by decide, rfl⟩

/-- Witness for the `verify` semantics theorem at a concrete instance:
over GF(2), share 0 against the metadata of `split((0,), 1, 1)` matches
exactly at x = 1 and `verify` returns 1. -/
theorem verify_semantics_witness :
    matchList (fun n => (n : ZMod 2)) Prod.mk (fun _ => (1 : ZMod 2)) 0
      [((0 : ZMod 2), (0 : ZMod 2))] [0] = [1] ∧
    shamirVerify (fun n => (n : ZMod 2)) Prod.mk (fun _ => (1 : ZMod 2)) 0
      [((0 : ZMod 2), (0 : ZMod 2))] [0] = (fun n => (n : ZMod 2)) 1 :=
  ⟨by decide,
   (verify_semantics (fun n => (n : ZMod 2)) Prod.mk (fun _ => (1 : ZMod 2)) 0
      [((0 : ZMod 2), (0 : ZMod 2))] [0] (by decide)).2.1 1 (by decide)⟩

/-- Witness for the `recover` error contract at a concrete instance:
no shares against one commitment fails with an empty bad-share list. -/
theorem recover_error_contract_witness :
    shamirRecover (fun n => (n : ZMod 2)) Prod.mk (fun _ => (1 : ZMod 2)) [] [] [0] [] =
      .error [] :=
  (recover_error_contract (fun n => (n : ZMod 2)) Prod.mk (fun _ => (1 : ZMod 2))
    [] [0] [] []).1 (by decide)

/-! ### bip39: word lookup -/

theorem length_takeWhile_eq {α : Type} (p : α → Bool) :
    ∀ (l : List α) (i : ℕ) (hi : i < l.length),
      (∀ j (hj : j < i), p (l.get ⟨j, lt_trans hj hi⟩) = true) →
      p (l.get ⟨i, hi⟩) = false → (l.takeWhile p).length = i := by
  intro l
  induction l with
  | nil => intro i hi; simp at hi
  | cons a t ih =>
    intro i hi hall hstop
    cases i with
    | zero =>
      simp only [List.get] at hstop
      simp [List.takeWhile_cons, hstop]
    | succ j =>
      have ha : p a = true := hall 0 (Nat.succ_pos j)
      simp only [List.takeWhile_cons, ha, if_true, List.length_cons]
      have hj : j < t.length := by simpa using hi
      rw [ih j hj (fun k hk => hall (k + 1) (by omega)) hstop]

theorem bisectLeft_get (ws : List (List ℕ)) (hp : List.Pairwise (· < ·) ws)
    (i : ℕ) (hi : i < ws.length) :
    bisectLeft ws (ws.get ⟨i, hi⟩) = i := by
  unfold bisectLeft
  refine length_takeWhile_eq _ ws i hi ?_ ?_
  · intro j hj
    have := (List.pairwise_iff_get.mp hp) ⟨j, lt_trans hj hi⟩ ⟨i, hi⟩ hj
    simpa using this
  · simp

/-- On a strictly sorted word list, looking up an exact entry returns its
index: `bisect_left` lands on the entry itself, the prefix test succeeds,
and the ambiguity test is short-circuited by `wordlist[i] != word` being
false. -/
theorem decodeWord_get_eq (ws : List (List ℕ)) (hp : List.Pairwise (· < ·) ws)
    (i : ℕ) (hi : i < ws.length) :
    decodeWord ws (ws.get ⟨i, hi⟩) = .ok i := by
  unfold decodeWord
  rw [bisectLeft_get ws hp i hi]
  have hsome : ws[i]? = some (ws.get ⟨i, hi⟩) := by
    rw [List.getElem?_eq_getElem hi]
    simp
  have hpre : (ws.get ⟨i, hi⟩).isPrefixOf (ws.get ⟨i, hi⟩) = true :=
    List.isPrefixOf_iff_prefix.mpr (List.prefix_refl _)
  simp [hsome, hpre]

/-- C10: a mnemonic token exactly equal to a wordlist entry is always
accepted by `decode` as that entry's index and never rejected as
ambiguous, even when the entry is a proper prefix of later entries (the
`wordlist[i] != word` conjunct short-circuits the ambiguity test); the
ambiguity rejection can therefore only apply to tokens that are proper
prefixes of entries. -/
theorem decode_exact_match_accepted (ws : List (List ℕ))
    (hp : List.Pairwise (· < ·) ws) (i : ℕ) (hi : i < ws.length) :
    decodeWord ws (ws.get ⟨i, hi⟩) = .ok i :=
  decodeWord_get_eq ws hp i hi

/-- Witness: in a sorted list modelling `["act", "action", "actor"]`,
where the entry `[0]` is a proper prefix of both later entries, the exact
token `[0]` is accepted as index 0 (not rejected as ambiguous). -/
theorem decode_exact_match_accepted_witness :
    decodeWord [[0], [0, 1], [0, 2]] [0] = .ok 0 := by
  have h := decode_exact_match_accepted [[0], [0, 1], [0, 2]] (by decide) 0 (by decide)
  simpa using h

/-! ### bip39: byte-string and bit-packing arithmetic -/

theorem intFromBytes_append (bs : List ℕ) (b : ℕ) :
    intFromBytes (bs ++ [b]) = intFromBytes bs * 256 + b := by
  simp [intFromBytes]

theorem intFromBytes_lt :
    ∀ (bs : List ℕ), (∀ x ∈ bs, x < 256) → intFromBytes bs < 256 ^ bs.length := by
  intro bs
  induction bs using List.reverseRecOn with
  | nil => intro _; simp [intFromBytes]
  | append_singleton bs b ih =>
    intro hb
    rw [intFromBytes_append]
    have h1 : intFromBytes bs < 256 ^ bs.length :=
      ih (fun x hx => hb x (List.mem_append_left _ hx))
    have h2 : b < 256 := hb b (List.mem_append_right _ (List.mem_singleton_self b))
    have : (bs ++ [b]).length = bs.length + 1 := by simp
    rw [this, pow_succ]
    nlinarith

theorem length_intToBytes : ∀ (l n : ℕ), (intToBytes l n).length = l := by
  intro l
  induction l with
  | zero => intro n; simp [intToBytes]
  | succ k ih => intro n; simp [intToBytes, ih]

theorem intToBytes_intFromBytes :
    ∀ (bs : List ℕ), (∀ x ∈ bs, x < 256) →
      intToBytes bs.length (intFromBytes bs) = bs := by
  intro bs
  induction bs using List.reverseRecOn with
  | nil => intro _; simp [intFromBytes, intToBytes]
  | append_singleton bs b ih =>
    intro hb
    have h2 : b < 256 := hb b (List.mem_append_right _ (List.mem_singleton_self b))
    have hlen : (bs ++ [b]).length = bs.length + 1 := by simp
    rw [hlen, intFromBytes_append, intToBytes]
    have hdiv : (intFromBytes bs * 256 + b) / 256 = intFromBytes bs := by
      omega
    have hmod : (intFromBytes bs * 256 + b) % 256 = b := by
      omega
    rw [hdiv, hmod, ih (fun x hx => hb x (List.mem_append_left _ hx))]

/-! ### bip39: join and split -/

theorem ssplit_nil : ssplit [] = [[]] := rfl

theorem ssplit_cons_sep (s : List ℕ) : ssplit (32 :: s) = [] :: ssplit s := rfl

theorem ssplit_cons_ne (c : ℕ) (hc : c ≠ 32) (s : List ℕ) :
    ssplit (c :: s) = (c :: (ssplit s).headI) :: (ssplit s).tail := by
  simp [ssplit, hc]

theorem ssplit_ne_nil (s : List ℕ) : ssplit s ≠ [] := by
  induction s with
  | nil => simp [ssplit_nil]
  | cons c s ih =>
    by_cases hc : c = 32
    · subst hc; simp [ssplit_cons_sep]
    · rw [ssplit_cons_ne c hc]; simp

theorem ssplit_word_append :
    ∀ (w s : List ℕ), (32 : ℕ) ∉ w →
      ssplit (w ++ s) = (w ++ (ssplit s).headI) :: (ssplit s).tail := by
  intro w
  induction w with
  | nil =>
    intro s _
    rcases hS : ssplit s with _ | ⟨a, t⟩
    · exact absurd hS (ssplit_ne_nil s)
    · rw [List.nil_append, hS]; simp
  | cons c w ih =>
    intro s hw
    have hc : c ≠ 32 := fun h => hw (by simp [h])
    have hw2 : (32 : ℕ) ∉ w := fun h => hw (by simp [h])
    rw [List.cons_append, ssplit_cons_ne c hc, ih s hw2]
    simp

/-- Splitting on the separator undoes joining with it, for a non-empty
token list none of whose tokens contains the separator. -/
theorem ssplit_sjoin :
    ∀ (ts : List (List ℕ)), ts ≠ [] → (∀ t ∈ ts, (32 : ℕ) ∉ t) →
      ssplit (sjoin ts) = ts := by
  intro ts
  induction ts with
  | nil => intro h; exact absurd rfl h
  | cons t ts ih =>
    intro _ hsp
    rcases ts with _ | ⟨u, us⟩
    · have h := ssplit_word_append t [] (hsp t (by simp))
      rw [List.append_nil] at h
      show ssplit t = [t]
      rw [h]
      simp [ssplit_nil]
    · have hjoin : sjoin (t :: u :: us) = t ++ 32 :: sjoin (u :: us) := rfl
      rw [hjoin, ssplit_word_append t _ (hsp t (by simp)), ssplit_cons_sep,
        ih (by simp) (fun x hx => hsp x (by simp [hx]))]
      simp

theorem shiftLeft_lor_eq (a b k : ℕ) (hb : b < 2 ^ k) :
    (a <<< k) ||| b = 2 ^ k * a + b := by
  apply Nat.eq_of_testBit_eq
  intro j
  rw [Nat.testBit_lor, Nat.testBit_shiftLeft, Nat.testBit_mul_pow_two_add a hb j]
  by_cases hj : j < k
  · have h1 : ¬ j ≥ k := by omega
    simp [hj, h1]
  · have h1 : j ≥ k := by omega
    have h2 : b.testBit j = false :=
      Nat.testBit_lt_two_pow (lt_of_lt_of_le hb (Nat.pow_le_pow_right (by norm_num) h1))
    simp [hj, h1, h2]

theorem mod_lor_digit (k N : ℕ) :
    (N % 2 ^ k) ||| (((N >>> k) &&& 2047) <<< k) = N % 2 ^ (k + 11) := by
  have h2047 : (2047 : ℕ) = 2 ^ 11 - 1 := by norm_num
  have hlow : N % 2 ^ k < 2 ^ k := Nat.mod_lt _ (Nat.pos_pow_of_pos k (by norm_num))
  rw [Nat.lor_comm, shiftLeft_lor_eq _ _ _ hlow, h2047,
    Nat.and_pow_two_sub_one_eq_mod, Nat.shiftRight_eq_div_pow, pow_add,
    Nat.mod_mul]
  ring

theorem foldl_lor_digits :
    ∀ (w N : ℕ),
      ((List.range w).map
        (fun t => ((N >>> (t * 11)) &&& 2047) <<< (t * 11))).foldl
          (fun a b => a ||| b) 0 = N % 2 ^ (w * 11) := by
  intro w
  induction w with
  | zero => intro N; simp [Nat.mod_one]
  | succ u ih =>
    intro N
    rw [List.range_succ, List.map_append, List.foldl_append, ih N]
    show (N % 2 ^ (u * 11)) ||| (((N >>> (u * 11)) &&& 2047) <<< (u * 11)) = _
    rw [mod_lor_digit (u * 11) N]
    congr 1
    ring

theorem reverse_encode_digits (nw N : ℕ) :
    ((List.range nw).map
      (fun j => (N >>> ((nw - 1 - j) * 11)) &&& 2047)).reverse =
    (List.range nw).map (fun t => (N >>> (t * 11)) &&& 2047) := by
  apply List.ext_getElem
  · simp
  · intro i h1 h2
    simp only [List.getElem_reverse, List.getElem_map, List.getElem_range,
      List.length_map, List.length_range] at h1 h2 ⊢
    congr 2
    omega

theorem reassemble_encode_digits (nw N : ℕ) (hN : N < 2 ^ (nw * 11)) :
    reassemble
      ((List.range nw).map (fun j => (N >>> ((nw - 1 - j) * 11)) &&& 2047)) = N := by
  unfold reassemble
  rw [reverse_encode_digits nw N]
  have hlen : ((List.range nw).map
      (fun j => (N >>> ((nw - 1 - j) * 11)) &&& 2047)).length = nw := by simp
  rw [hlen, List.zipWith_map
    (fun (d : ℕ) (sh : ℕ) => d <<< sh)
    (fun t => (N >>> (t * 11)) &&& 2047) (fun j => j * 11) (List.range nw) (List.range nw),
    List.zipWith_same]
  rw [foldl_lor_digits nw N]
  exact Nat.mod_eq_of_lt hN

theorem mapM_decodeWord_digits (ws : List (List ℕ))
    (hp : List.Pairwise (· < ·) ws) :
    ∀ (ds : List ℕ), (∀ d ∈ ds, d < ws.length) →
      (ds.map (fun d => ws.getD d [])).mapM (decodeWord ws) = Except.ok ds := by
  intro ds
  induction ds with
  | nil => intro _; rfl
  | cons d ds ih =>
    intro hd
    have hdlt : d < ws.length := hd d (by simp)
    have hget : ws.getD d [] = ws.get ⟨d, hdlt⟩ := by
      rw [List.getD_eq_getElem?_getD, List.getElem?_eq_getElem hdlt]
      simp
    rw [List.map_cons, List.mapM_cons, hget, decodeWord_get_eq ws hp d hdlt,
      ih (fun x hx => hd x (by simp [hx]))]
    rfl

/-- C2: codec round trip.  For every entropy byte string of a supported
length and any word list satisfying the source's asserted invariants
(2048 entries, strictly sorted, NFKD-fixed, no separator character),
`decode (encode entropy) = entropy`.  `sha` is the abstract SHA-256
checksum source, constrained only to fit in its digest bytes. -/
theorem codec_round_trip (ws : List (List ℕ)) (sha : List ℕ → ℕ → ℕ)
    (hwlen : ws.length = 2048) (hsort : List.Chain' (· < ·) ws)
    (hsp : ∀ w ∈ ws, (32 : ℕ) ∉ w)
    (hsha : ∀ e n, sha e n < 2 ^ (8 * n))
    (entropy : List ℕ)
    (hent : entropy.length = 16 ∨ entropy.length = 20 ∨ entropy.length = 24 ∨
            entropy.length = 28 ∨ entropy.length = 32)
    (hbytes : ∀ b ∈ entropy, b < 256) :
    ∃ mn, bip39Encode ws sha entropy = .ok mn ∧
          bip39Decode ws sha mn = .ok entropy := by
  have hp : List.Pairwise (· < ·) ws := List.chain'_iff_pairwise.mp hsort
  obtain ⟨k, hk, hk4, hk8⟩ : ∃ k, entropy.length = 4 * k ∧ 4 ≤ k ∧ k ≤ 8 :=
    ⟨entropy.length / 4, by omega, by omega, by omega⟩
  have hcb : (bipChecksum sha entropy).2 = k := by
    show entropy.length / 4 = k
    omega
  have hcsInt : (bipChecksum sha entropy).1 < 2 ^ k := by
    show sha entropy ((entropy.length / 4 + 7) / 8) >>>
        (((entropy.length / 4 + 7) / 8) * 8 - entropy.length / 4) < 2 ^ k
    have h1 : (entropy.length / 4 + 7) / 8 = 1 := by omega
    have h2 : entropy.length / 4 = k := by omega
    rw [h1, h2, Nat.shiftRight_eq_div_pow]
    apply Nat.div_lt_of_lt_mul
    have h3 : (2:ℕ) ^ (1 * 8 - k) * 2 ^ k = 2 ^ 8 := by
      rw [← pow_add]; congr 1; omega
    rw [h3]
    exact lt_of_lt_of_le (hsha entropy 1) (by norm_num)
  have heLt : intFromBytes entropy < 2 ^ (32 * k) := by
    calc intFromBytes entropy < 256 ^ entropy.length := intFromBytes_lt entropy hbytes
    _ = 2 ^ (8 * entropy.length) := by
        rw [show (256:ℕ) = 2 ^ 8 by norm_num, ← pow_mul]
    _ = 2 ^ (32 * k) := by rw [hk]; ring_nf
  have hnw : entropy.length * 3 / 4 = 3 * k := by omega
  have hencode : bip39Encode ws sha entropy =
      .ok (sjoin (encodeWords ws
        ((intFromBytes entropy <<< (bipChecksum sha entropy).2) |||
          (bipChecksum sha entropy).1) (3 * k))) := by
    unfold bip39Encode
    rw [if_pos hent]
    simp only [hnw]
  refine ⟨_, hencode, ?_⟩
  set C := (bipChecksum sha entropy).1 with hCdef
  set E := intFromBytes entropy with hEdef
  set N := (E <<< (bipChecksum sha entropy).2) ||| C with hNdef
  have hNval : N = 2 ^ k * E + C := by
    rw [hNdef, hcb]
    exact shiftLeft_lor_eq E C k hcsInt
  have hpow : (0:ℕ) < 2 ^ k := pow_pos (by norm_num) k
  have hNlt : N < 2 ^ (33 * k) := by
    rw [hNval]
    calc 2 ^ k * E + C < 2 ^ k * E + 2 ^ k := by omega
    _ = 2 ^ k * (E + 1) := by ring
    _ ≤ 2 ^ k * 2 ^ (32 * k) := Nat.mul_le_mul_left _ (by omega)
    _ = 2 ^ (33 * k) := by rw [← pow_add]; congr 1; omega
  have hdig : encodeWords ws N (3 * k) =
      ((List.range (3 * k)).map
        (fun j => (N >>> ((3 * k - 1 - j) * 11)) &&& 2047)).map
        (fun d => ws.getD d []) := by
    unfold encodeWords
    rw [List.map_map]
    rfl
  have hdlt : ∀ d ∈ (List.range (3 * k)).map
      (fun j => (N >>> ((3 * k - 1 - j) * 11)) &&& 2047), d < ws.length := by
    intro d hd
    rw [hwlen]
    simp only [List.mem_map] at hd
    obtain ⟨j, _, rfl⟩ := hd
    have hle : (N >>> ((3 * k - 1 - j) * 11)) &&& 2047 ≤ 2047 := Nat.and_le_right
    omega
  have htokmem : ∀ t ∈ encodeWords ws N (3 * k), t ∈ ws := by
    intro t ht
    rw [hdig] at ht
    rcases List.mem_map.mp ht with ⟨d, hdmem, rfl⟩
    have hlt : d < ws.length := hdlt d hdmem
    have hgd : ws.getD d [] = ws.get ⟨d, hlt⟩ := by
      rw [List.getD_eq_getElem?_getD, List.getElem?_eq_getElem hlt]
      simp
    rw [hgd]
    exact List.get_mem ws d hlt
  have hnonempty : encodeWords ws N (3 * k) ≠ [] := by
    rw [hdig]
    simp only [ne_eq, List.map_eq_nil_iff, List.range_eq_nil]
    omega
  have hsplitjoin : ssplit (sjoin (encodeWords ws N (3 * k))) =
      encodeWords ws N (3 * k) :=
    ssplit_sjoin _ hnonempty (fun t ht => hsp t (htokmem t ht))
  unfold bip39Decode
  rw [hsplitjoin, hdig, mapM_decodeWord_digits ws hp _ hdlt]
  show bip39DecodeRaw sha
      ((List.range (3 * k)).map
        (fun j => (N >>> ((3 * k - 1 - j) * 11)) &&& 2047)) = .ok entropy
  have hrawlen : ((List.range (3 * k)).map
      (fun j => (N >>> ((3 * k - 1 - j) * 11)) &&& 2047)).length = 3 * k := by simp
  have hreas : reassemble ((List.range (3 * k)).map
      (fun j => (N >>> ((3 * k - 1 - j) * 11)) &&& 2047)) = N := by
    apply reassemble_encode_digits
    calc N < 2 ^ (33 * k) := hNlt
    _ = 2 ^ (3 * k * 11) := by congr 1; ring
  unfold bip39DecodeRaw
  rw [hrawlen, hreas]
  have hlencond : 3 * k = 12 ∨ 3 * k = 15 ∨ 3 * k = 18 ∨ 3 * k = 21 ∨
      3 * k = 24 := by omega
  rw [if_neg (not_not_intro hlencond)]
  have hk3 : 3 * k / 3 = k := by omega
  have hbits : (3 * k * 11 - 3 * k / 3) / 8 = 4 * k := by
    omega
  rw [hk3]
  have hbits2 : (3 * k * 11 - k) / 8 = 4 * k := by omega
  rw [hbits2]
  have hshift : N >>> k = E := by
    rw [hNval, Nat.shiftRight_eq_div_pow, Nat.add_comm,
      Nat.add_mul_div_left _ _ hpow, Nat.div_eq_of_lt hcsInt, Nat.zero_add]
  have hand : N &&& ((1 <<< k) - 1) = C := by
    rw [Nat.shiftLeft_eq, one_mul, Nat.and_pow_two_sub_one_eq_mod, hNval,
      Nat.mul_add_mod, Nat.mod_eq_of_lt hcsInt]
  rw [hshift, hand]
  have hback : intToBytes (4 * k) E = entropy := by
    rw [hEdef, ← hk]
    exact intToBytes_intFromBytes entropy hbytes
  rw [hback]
  rw [if_neg (not_not_intro rfl)]

/-- Witness for the codec round trip: the all-zero 16-byte entropy with a
concrete 2048-entry strictly sorted word list and a concrete checksum
source. -/
theorem wsW_length : wsW.length = 2048 := by simp [wsW]

theorem wsW_sorted : List.Chain' (· < ·) wsW := by
  unfold wsW
  rw [List.chain'_map]
  have h : (2048 : ℕ) = Nat.succ 2047 := rfl
  rw [h, List.chain'_range_succ]
  intro m _
  exact (List.Lex.singleton_iff _ _).mpr (by omega)

theorem wsW_nospace : ∀ w ∈ wsW, (32 : ℕ) ∉ w := by
  intro w hw
  rcases List.mem_map.mp hw with ⟨n, _, rfl⟩
  simp only [List.mem_singleton]
  omega

set_option maxRecDepth 10000 in
/-- Witness for the codec round trip: the all-zero 16-byte entropy with a
concrete 2048-entry strictly sorted word list and a concrete checksum
source. -/
theorem codec_round_trip_witness :
    ∃ mn, bip39Encode wsW shaW (List.replicate 16 0) = .ok mn ∧
          bip39Decode wsW shaW mn = .ok (List.replicate 16 0) :=
  codec_round_trip wsW shaW wsW_length wsW_sorted wsW_nospace
    (fun _ _ => Nat.two_pow_pos _) (List.replicate 16 0)
    (Or.inl (List.length_replicate 16 0))
    (fun b hb => by rw [List.eq_of_mem_replicate hb]; norm_num)

/-! ### bip39: lexicographic facts for prefix lookups -/

theorem lex_lt_append (t : List ℕ) (c : ℕ) (s : List ℕ) : t < t ++ c :: s := by
  induction t with
  | nil => exact List.Lex.nil
  | cons x tl ih => exact List.Lex.cons ih

theorem le_of_isPrefix {t u : List ℕ} (h : t <+: u) : t ≤ u := by
  obtain ⟨s, rfl⟩ := h
  cases s with
  | nil => simp
  | cons c s => exact le_of_lt (lex_lt_append t c s)

theorem head_le_of_cons_le {x y : ℕ} {a b : List ℕ}
    (h : (x :: a : List ℕ) ≤ y :: b) : x ≤ y := by
  by_contra hxy
  exact absurd (List.Lex.rel (by omega) : (y :: b : List ℕ) < x :: a) (not_lt.mpr h)

theorem tail_le_of_cons_le {x : ℕ} {a b : List ℕ}
    (h : (x :: a : List ℕ) ≤ x :: b) : a ≤ b := by
  by_contra hab
  exact absurd (List.Lex.cons (not_le.mp hab) : (x :: b : List ℕ) < x :: a)
    (not_lt.mpr h)

theorem not_cons_le_nil (x : ℕ) (a : List ℕ) : ¬ (x :: a : List ℕ) ≤ [] := by
  intro h
  exact absurd (List.Lex.nil : ([] : List ℕ) < x :: a) (not_lt.mpr h)

/-- Lexicographic interval property of prefixes: everything between `t`
and a `t`-prefixed string is itself `t`-prefixed. -/
theorem isPrefix_of_between :
    ∀ (t u c : List ℕ), t ≤ u → u ≤ c → t <+: c → t <+: u := by
  intro t
  induction t with
  | nil => intro u c _ _ _; exact List.nil_prefix
  | cons x tl ih =>
    intro u c htu huc htc
    rcases u with _ | ⟨y, ut⟩
    · exact absurd htu (not_cons_le_nil x tl)
    rcases c with _ | ⟨z, ct⟩
    · exact absurd huc (not_cons_le_nil y ut)
    rcases List.cons_prefix_cons.mp htc with ⟨rfl, htc2⟩
    have h1 : x ≤ y := head_le_of_cons_le htu
    have h2 : y ≤ x := head_le_of_cons_le huc
    have hxy : x = y := le_antisymm h1 h2
    subst hxy
    exact List.cons_prefix_cons.mpr
      ⟨rfl, ih ut ct (tail_le_of_cons_le htu) (tail_le_of_cons_le huc) htc2⟩

/-! ### bip39: bisect position facts -/

theorem bisectLeft_eq_length (ws : List (List ℕ)) (t : List ℕ)
    (hall : ∀ u ∈ ws, u < t) : bisectLeft ws t = ws.length := by
  unfold bisectLeft
  rw [List.takeWhile_eq_self_iff.mpr (fun u hu => decide_eq_true (hall u hu))]

theorem bisectLeft_lt_length (ws : List (List ℕ)) (t : List ℕ)
    (hnot : ¬ ∀ u ∈ ws, u < t) : bisectLeft ws t < ws.length := by
  have hle : (ws.takeWhile (fun u => decide (u < t))).length ≤ ws.length :=
    (List.takeWhile_prefix _).length_le
  rcases lt_or_eq_of_le hle with h | h
  · exact h
  · exfalso
    apply hnot
    intro u hu
    have := List.takeWhile_eq_self_iff.mp
      ((List.takeWhile_prefix _).eq_of_length h)
    exact of_decide_eq_true (this u hu)

theorem getD_length_takeWhile_not (l : List (List ℕ)) (p : List ℕ → Bool) :
    ∀ (hl : (l.takeWhile p).length < l.length),
      p (l.getD (l.takeWhile p).length []) = false := by
  induction l with
  | nil => intro hl; simp at hl
  | cons a tl ih =>
    intro hl
    by_cases hpa : p a = true
    · rw [List.takeWhile_cons, if_pos hpa] at hl ⊢
      simp only [List.length_cons, List.getD_cons_succ]
      exact ih (by simpa using hl)
    · have hpa2 : p a = false := by
        revert hpa; cases p a <;> simp
      rw [List.takeWhile_cons, if_neg (by simp [hpa2])]
      simpa using hpa2

theorem get_bisectLeft_not_lt (ws : List (List ℕ)) (t : List ℕ)
    (h : bisectLeft ws t < ws.length) :
    ¬ ws.get ⟨bisectLeft ws t, h⟩ < t := by
  intro hlt
  have hfalse := getD_length_takeWhile_not ws (fun u => decide (u < t)) h
  have hgd : ws.getD (bisectLeft ws t) [] = ws.get ⟨bisectLeft ws t, h⟩ := by
    rw [List.getD_eq_getElem?_getD, List.getElem?_eq_getElem h]
    simp
  unfold bisectLeft at hgd
  rw [hgd] at hfalse
  simp only [decide_eq_false_iff_not] at hfalse
  exact hfalse hlt

theorem get_lt_of_lt_bisectLeft (ws : List (List ℕ)) (t : List ℕ)
    (j : ℕ) (hj : j < bisectLeft ws t) (hjl : j < ws.length) :
    ws.get ⟨j, hjl⟩ < t := by
  have hpre := List.takeWhile_prefix (l := ws) (fun u => decide (u < t))
  have hjw : j < (ws.takeWhile (fun u => decide (u < t))).length := hj
  have hmem : (ws.takeWhile (fun u => decide (u < t))).get ⟨j, hjw⟩ ∈
      ws.takeWhile (fun u => decide (u < t)) := List.get_mem _ _ _
  have hp := List.mem_takeWhile_imp hmem
  have heq : (ws.takeWhile (fun u => decide (u < t))).get ⟨j, hjw⟩ =
      ws.get ⟨j, hjl⟩ := by
    have := hpre.getElem hjw
    simpa using this
  rw [heq] at hp
  exact of_decide_eq_true hp

theorem le_getLast_of_sorted (ws : List (List ℕ))
    (hp : List.Pairwise (· < ·) ws) (hne : ws ≠ []) :
    ∀ u ∈ ws, u ≤ ws.getLast hne := by
  intro u hu
  obtain ⟨⟨i, hi⟩, rfl⟩ := List.mem_iff_get.mp hu
  rw [List.getLast_eq_get]
  rcases lt_or_eq_of_le (Nat.le_sub_one_of_lt hi) with h | h
  · exact le_of_lt ((List.pairwise_iff_get.mp hp) _ _ h)
  · simp only [h]
    exact le_rfl

/-- A token sorting strictly after every wordlist entry sends
`bisect_left` to `len(wordlist)`, and `wordlist[i]` raises `IndexError`. -/
theorem decodeWord_after_last (ws : List (List ℕ)) (t : List ℕ)
    (hall : ∀ u ∈ ws, u < t) :
    decodeWord ws t = .error .indexError := by
  unfold decodeWord
  rw [bisectLeft_eq_length ws t hall]
  rw [List.getElem?_eq_none le_rfl]

/-- A token that is a prefix of no entry and does not sort after every
entry fails with the invalid-word error. -/
theorem decodeWord_invalid (ws : List (List ℕ)) (t : List ℕ)
    (hnp : ∀ w ∈ ws, ¬ t.isPrefixOf w = true)
    (hnot : ¬ ∀ u ∈ ws, u < t) :
    decodeWord ws t = .error .invalidWord := by
  unfold decodeWord
  have hlt := bisectLeft_lt_length ws t hnot
  rw [List.getElem?_eq_getElem hlt]
  have hmem : ws[bisectLeft ws t] ∈ ws := ws.getElem_mem hlt
  simp only [hnp _ hmem, Bool.false_eq_true, not_false_eq_true, if_true]

/-- A token that is not itself an entry but is a prefix of at least two
entries fails with the ambiguous-word error: `bisect_left` lands on the
first prefixed entry, and the next entry is prefixed too. -/
theorem decodeWord_ambiguous (ws : List (List ℕ)) (t : List ℕ)
    (hp : List.Pairwise (· < ·) ws) (htw : t ∉ ws)
    (i j : ℕ) (hi : i < ws.length) (hj : j < ws.length) (hij : i < j)
    (hpi : t.isPrefixOf (ws.get ⟨i, hi⟩) = true)
    (hpj : t.isPrefixOf (ws.get ⟨j, hj⟩) = true) :
    decodeWord ws t = .error .ambiguousWord := by
  have hsget := List.pairwise_iff_get.mp hp
  have hprei : t <+: ws.get ⟨i, hi⟩ := List.isPrefixOf_iff_prefix.mp hpi
  have hprej : t <+: ws.get ⟨j, hj⟩ := List.isPrefixOf_iff_prefix.mp hpj
  -- the bisect position exists
  have hnot : ¬ ∀ u ∈ ws, u < t := by
    intro hall
    exact absurd (hall _ (List.get_mem ws i hi)) (not_lt.mpr (le_of_isPrefix hprei))
  have hb := bisectLeft_lt_length ws t hnot
  -- the bisect position is at most i
  have hbi : bisectLeft ws t ≤ i := by
    by_contra hc
    exact absurd (get_lt_of_lt_bisectLeft ws t i (by omega) hi)
      (not_lt.mpr (le_of_isPrefix hprei))
  -- the entry at the bisect position is prefixed by t
  have htb : t ≤ ws.get ⟨bisectLeft ws t, hb⟩ := not_lt.mp (get_bisectLeft_not_lt ws t hb)
  have hble : ws.get ⟨bisectLeft ws t, hb⟩ ≤ ws.get ⟨i, hi⟩ := by
    rcases lt_or_eq_of_le hbi with h | h
    · exact le_of_lt (hsget _ _ h)
    · simp only [h]
      exact le_rfl
  have hpb : t <+: ws.get ⟨bisectLeft ws t, hb⟩ :=
    isPrefix_of_between t _ _ htb hble hprei
  -- the next entry exists and is prefixed by t
  have hb1 : bisectLeft ws t + 1 < ws.length := by omega
  have hble2 : ws.get ⟨bisectLeft ws t + 1, hb1⟩ ≤ ws.get ⟨j, hj⟩ := by
    rcases lt_or_eq_of_le (show bisectLeft ws t + 1 ≤ j by omega) with h | h
    · exact le_of_lt (hsget _ _ h)
    · simp only [h]
      exact le_rfl
  have htb2 : t ≤ ws.get ⟨bisectLeft ws t + 1, hb1⟩ :=
    le_trans htb (le_of_lt (hsget _ _ (Nat.lt_succ_self _)))
  have hpb2 : t <+: ws.get ⟨bisectLeft ws t + 1, hb1⟩ :=
    isPrefix_of_between t _ _ htb2 hble2 hprej
  -- evaluate decodeWord
  have hneb : ws.get ⟨bisectLeft ws t, hb⟩ ≠ t := by
    intro hc
    exact htw (hc ▸ List.get_mem ws _ hb)
  unfold decodeWord
  rw [List.getElem?_eq_getElem hb]
  have hpreb : t.isPrefixOf ws[bisectLeft ws t] = true :=
    List.isPrefixOf_iff_prefix.mpr hpb
  rw [List.getElem?_eq_getElem hb1]
  simp only [hpreb, not_true_eq_false, if_false, Option.any_some]
  rw [if_pos ⟨hneb, List.isPrefixOf_iff_prefix.mpr hpb2⟩]

theorem mapM_decodeWord_error (ws : List (List ℕ)) :
    ∀ (pre : List (List ℕ)), (∀ u ∈ pre, ∃ j, decodeWord ws u = .ok j) →
      ∀ (t : List ℕ) (post : List (List ℕ)) (e : Bip39Error),
        decodeWord ws t = .error e →
        (pre ++ t :: post).mapM (decodeWord ws) = .error e := by
  intro pre
  induction pre with
  | nil =>
    intro _ t post e he
    rw [List.nil_append, List.mapM_cons, he]
    rfl
  | cons u pre ih =>
    intro hpre t post e he
    obtain ⟨j, hj⟩ := hpre u (by simp)
    rw [List.cons_append, List.mapM_cons, hj,
      ih (fun x hx => hpre x (by simp [hx])) t post e he]
    rfl

/-- C6 (amended): rejection of unknown mnemonic tokens by `decode`, for a
mnemonic whose first offending token is `t` (every earlier token resolves).
If `t` is a prefix of no wordlist entry, `decode` fails with `InvalidWord`
— except when `t` sorts after the last wordlist entry, in which case
`bisect_left` returns `len(wordlist)` and the subscript raises an
unhandled `IndexError` instead.  A token that is not itself an entry but
is a prefix of two or more (necessarily consecutive) entries fails with
`AmbiguousWord`. -/
theorem decode_invalid_word_amended (ws : List (List ℕ))
    (sha : List ℕ → ℕ → ℕ) (hne : ws ≠ []) (hp : List.Pairwise (· < ·) ws)
    (pre : List (List ℕ)) (t : List ℕ) (post : List (List ℕ))
    (hsp1 : ∀ u ∈ pre, (32 : ℕ) ∉ u) (hsp2 : (32 : ℕ) ∉ t)
    (hsp3 : ∀ u ∈ post, (32 : ℕ) ∉ u)
    (hpre : ∀ u ∈ pre, ∃ j, decodeWord ws u = .ok j) :
    ((∀ w ∈ ws, ¬ t.isPrefixOf w = true) →
      bip39Decode ws sha (sjoin (pre ++ t :: post)) =
        .error (if ws.getLast hne < t then Bip39Error.indexError
                else Bip39Error.invalidWord)) ∧
    ((t ∉ ws ∧ ∃ i j, ∃ (hi : i < ws.length) (hj : j < ws.length), i < j ∧
        t.isPrefixOf (ws.get ⟨i, hi⟩) = true ∧
        t.isPrefixOf (ws.get ⟨j, hj⟩) = true) →
      bip39Decode ws sha (sjoin (pre ++ t :: post)) =
        .error Bip39Error.ambiguousWord) := by
  have hsplit : ssplit (sjoin (pre ++ t :: post)) = pre ++ t :: post := by
    apply ssplit_sjoin
    · simp
    · intro u hu
      rcases List.mem_append.mp hu with h | h
      · exact hsp1 u h
      · rcases List.mem_cons.mp h with h | h
        · subst h; exact hsp2
        · exact hsp3 u h
  constructor
  · intro hnp
    by_cases hafter : ws.getLast hne < t
    · have hall : ∀ u ∈ ws, u < t := fun u hu =>
        lt_of_le_of_lt (le_getLast_of_sorted ws hp hne u hu) hafter
      have herr := decodeWord_after_last ws t hall
      unfold bip39Decode
      rw [hsplit, mapM_decodeWord_error ws pre hpre t post _ herr, if_pos hafter]
    · have hnot : ¬ ∀ u ∈ ws, u < t := by
        intro hall
        exact hafter (hall _ (List.getLast_mem hne))
      have herr := decodeWord_invalid ws t hnp hnot
      unfold bip39Decode
      rw [hsplit, mapM_decodeWord_error ws pre hpre t post _ herr, if_neg hafter]
  · rintro ⟨htw, i, j, hi, hj, hij, hpi, hpj⟩
    have herr := decodeWord_ambiguous ws t hp htw i j hi hj hij hpi hpj
    unfold bip39Decode
    rw [hsplit, mapM_decodeWord_error ws pre hpre t post _ herr]

theorem wsW_ne : wsW ≠ [] := by simp [wsW]

/-- C6 (counterexample to the claim as stated): a token sorting after the
last wordlist entry makes `decode` raise `IndexError`
(`wordlist[2048]` out of range), not the claimed `InvalidWord`. -/
theorem decode_after_last_counterexample :
    bip39Decode wsW shaW (sjoin [[9999]]) = .error Bip39Error.indexError ∧
    Bip39Error.indexError ≠ Bip39Error.invalidWord := by
  constructor
  · have hall : ∀ u ∈ wsW, u < [9999] := by
      intro u hu
      rcases List.mem_map.mp hu with ⟨n, hn, rfl⟩
      have hn2 : n < 2048 := List.mem_range.mp hn
      exact (List.Lex.singleton_iff _ _).mpr (by omega)
    have herr := decodeWord_after_last wsW [9999] hall
    have hm := mapM_decodeWord_error wsW [] (by simp) [9999] [] _ herr
    rw [List.nil_append] at hm
    unfold bip39Decode
    rw [ssplit_sjoin [[9999]] (by simp) (by decide), hm]
  · decide

set_option maxRecDepth 10000 in
/-- Witness for the amended claim: the token `[0]`, a prefix of no entry
of the concrete word list and not after its last entry, is rejected as an
invalid word. -/
theorem decode_invalid_word_amended_witness :
    bip39Decode wsW shaW (sjoin [[0]]) = .error Bip39Error.invalidWord := by
  have hnp : ∀ w ∈ wsW, ¬ ([0] : List ℕ).isPrefixOf w = true := by
    intro w hw hpre
    rcases List.mem_map.mp hw with ⟨n, _, rfl⟩
    rcases List.cons_prefix_cons.mp (List.isPrefixOf_iff_prefix.mp hpre) with ⟨h0, _⟩
    omega
  have h := (decode_invalid_word_amended wsW shaW wsW_ne
    (List.chain'_iff_pairwise.mp wsW_sorted) [] [0] []
    (by simp) (by decide) (by simp) (by simp)).1 hnp
  have hnotlt : ¬ wsW.getLast wsW_ne < [0] := by
    intro hlt
    rcases List.mem_map.mp (List.getLast_mem wsW_ne) with ⟨n, _, heq⟩
    rw [← heq] at hlt
    have := (List.Lex.singleton_iff (n + 256) 0).mp hlt
    omega
  rw [if_neg hnotlt] at h
  exact h

/-! ### gf: the bit-field to polynomial interpretation -/

theorem natToPoly_zero : natToPoly 0 = 0 := by
  rw [natToPoly]
  simp

theorem natToPoly_eq (n : ℕ) :
    natToPoly n =
      Polynomial.C ((n % 2 : ℕ) : ZMod 2) + Polynomial.X * natToPoly (n / 2) := by
  by_cases h : n = 0
  · subst h
    rw [natToPoly]
    simp [natToPoly_zero]
  · rw [natToPoly]
    simp [h]

theorem natToPoly_one : natToPoly 1 = 1 := by
  rw [natToPoly_eq]
  norm_num [natToPoly_zero]

theorem natToPoly_coeff (n : ℕ) :
    ∀ i, (natToPoly n).coeff i = if n.testBit i then 1 else 0 := by
  induction n using Nat.strong_induction_on with
  | _ n ih =>
    intro i
    by_cases h : n = 0
    · subst h
      simp [natToPoly_zero, Nat.zero_testBit]
    · cases i with
      | zero =>
        rw [natToPoly_eq]
        simp only [Polynomial.coeff_add, Polynomial.coeff_C_zero,
          Polynomial.mul_coeff_zero, Polynomial.coeff_X_zero, zero_mul, add_zero,
          Nat.testBit_zero]
        rcases Nat.mod_two_eq_zero_or_one n with hm | hm <;> rw [hm] <;> simp
      | succ j =>
        rw [natToPoly_eq]
        simp only [Polynomial.coeff_add, Polynomial.coeff_C_succ,
          Polynomial.coeff_X_mul, zero_add]
        rw [ih (n / 2) (Nat.div_lt_self (Nat.pos_of_ne_zero h) one_lt_two) j,
          Nat.testBit_succ]

theorem natToPoly_xor (a b : ℕ) :
    natToPoly (a ^^^ b) = natToPoly a + natToPoly b := by
  apply Polynomial.ext
  intro i
  rw [Polynomial.coeff_add, natToPoly_coeff, natToPoly_coeff, natToPoly_coeff,
    Nat.testBit_xor]
  cases ha : a.testBit i <;> cases hb : b.testBit i <;> simp <;> decide

theorem natToPoly_inj : Function.Injective natToPoly := by
  intro a b h
  apply Nat.eq_of_testBit_eq
  intro i
  have hc := congrArg (fun p => Polynomial.coeff p i) h
  simp only [natToPoly_coeff] at hc
  cases ha : a.testBit i <;> cases hb : b.testBit i <;> rw [ha, hb] at hc <;>
    first
    | rfl
    | exact absurd hc (by decide)

theorem natToPoly_eq_zero_iff (n : ℕ) : natToPoly n = 0 ↔ n = 0 := by
  constructor
  · intro h
    exact natToPoly_inj (h.trans natToPoly_zero.symm)
  · intro h; subst h; exact natToPoly_zero

theorem natToPoly_two_mul (m : ℕ) :
    natToPoly (2 * m) = Polynomial.X * natToPoly m := by
  rw [natToPoly_eq]
  have h1 : 2 * m % 2 = 0 := by omega
  have h2 : 2 * m / 2 = m := by omega
  rw [h1, h2]
  simp

theorem natToPoly_shiftLeft (a : ℕ) :
    ∀ s, natToPoly (a <<< s) = natToPoly a * Polynomial.X ^ s := by
  intro s
  induction s with
  | zero => simp
  | succ u ih =>
    have h : a <<< (u + 1) = 2 * (a <<< u) := by
      rw [Nat.shiftLeft_eq, Nat.shiftLeft_eq, pow_succ]
      ring
    rw [h, natToPoly_two_mul, ih, pow_succ]
    ring

theorem clmulAux_zero_right (a : ℕ) : ∀ f, clmulAux f a 0 = 0 := by
  intro f
  cases f <;> simp [clmulAux]

theorem clmulAux_fuel :
    ∀ (f₁ : ℕ), ∀ (f₂ a b : ℕ), b ≤ f₁ → b ≤ f₂ → clmulAux f₁ a b = clmulAux f₂ a b := by
  intro f₁
  induction f₁ with
  | zero =>
    intro f₂ a b hb1 _
    have hb : b = 0 := by omega
    subst hb
    rw [clmulAux_zero_right, clmulAux_zero_right]
  | succ u ih =>
    intro f₂ a b hb1 hb2
    by_cases hb : b = 0
    · subst hb
      rw [clmulAux_zero_right, clmulAux_zero_right]
    · rcases f₂ with _ | f₂
      · omega
      · show (if b = 0 then 0
          else (if b % 2 = 1 then a else 0) ^^^ clmulAux u (2 * a) (b / 2)) =
          (if b = 0 then 0
          else (if b % 2 = 1 then a else 0) ^^^ clmulAux f₂ (2 * a) (b / 2))
        rw [if_neg hb, if_neg hb, ih f₂ (2 * a) (b / 2) (by omega) (by omega)]

theorem clmul_eq (a b : ℕ) :
    clmul a b = if b = 0 then 0
      else (if b % 2 = 1 then a else 0) ^^^ clmul (2 * a) (b / 2) := by
  by_cases hb : b = 0
  · subst hb
    simp [clmul, clmulAux_zero_right]
  · obtain ⟨u, rfl⟩ : ∃ u, b = u + 1 := ⟨b - 1, by omega⟩
    rw [if_neg hb]
    show (if u + 1 = 0 then 0
        else (if (u + 1) % 2 = 1 then a else 0) ^^^
          clmulAux u (2 * a) ((u + 1) / 2)) = _
    rw [if_neg hb]
    congr 1
    exact clmulAux_fuel u ((u + 1) / 2) (2 * a) ((u + 1) / 2) (by omega) le_rfl

theorem natToPoly_clmul (a b : ℕ) :
    natToPoly (clmul a b) = natToPoly a * natToPoly b := by
  induction b using Nat.strong_induction_on generalizing a with
  | _ b ih =>
    by_cases hb : b = 0
    · subst hb
      rw [clmul_eq]
      simp [natToPoly_zero]
    · rw [clmul_eq, if_neg hb, natToPoly_xor,
        ih (b / 2) (Nat.div_lt_self (Nat.pos_of_ne_zero hb) one_lt_two) (2 * a),
        natToPoly_two_mul]
      conv_rhs => rw [natToPoly_eq b]
      rcases Nat.mod_two_eq_zero_or_one b with hm | hm <;> rw [hm]
      · simp [natToPoly_zero]
        ring
      · simp [natToPoly_zero]
        ring

/-! ### gf: bit length -/

theorem bitLenAux_zero_right : ∀ f, bitLenAux f 0 = 0 := by
  intro f
  cases f <;> simp [bitLenAux]

theorem bitLenAux_fuel :
    ∀ (f₁ : ℕ), ∀ (f₂ n : ℕ), n ≤ f₁ → n ≤ f₂ → bitLenAux f₁ n = bitLenAux f₂ n := by
  intro f₁
  induction f₁ with
  | zero =>
    intro f₂ n h1 _
    have : n = 0 := by omega
    subst this
    rw [bitLenAux_zero_right, bitLenAux_zero_right]
  | succ u ih =>
    intro f₂ n h1 h2
    by_cases hn : n = 0
    · subst hn
      rw [bitLenAux_zero_right, bitLenAux_zero_right]
    · rcases f₂ with _ | f₂
      · omega
      · show (if n = 0 then 0 else bitLenAux u (n / 2) + 1) =
          (if n = 0 then 0 else bitLenAux f₂ (n / 2) + 1)
        rw [if_neg hn, if_neg hn, ih f₂ (n / 2) (by omega) (by omega)]

theorem bitLen_eq (n : ℕ) :
    bitLen n = if n = 0 then 0 else bitLen (n / 2) + 1 := by
  by_cases hn : n = 0
  · subst hn
    simp [bitLen, bitLenAux]
  · obtain ⟨u, rfl⟩ : ∃ u, n = u + 1 := ⟨n - 1, by omega⟩
    rw [if_neg hn]
    show (if u + 1 = 0 then 0 else bitLenAux u ((u + 1) / 2) + 1) = _
    rw [if_neg hn]
    congr 1
    exact bitLenAux_fuel u ((u + 1) / 2) ((u + 1) / 2) (by omega) le_rfl

theorem bitLen_zero : bitLen 0 = 0 := rfl

theorem bitLen_eq_zero_iff (n : ℕ) : bitLen n = 0 ↔ n = 0 := by
  constructor
  · intro h
    by_contra hn
    rw [bitLen_eq, if_neg hn] at h
    omega
  · intro h; subst h; exact bitLen_zero

theorem lt_two_pow_bitLen : ∀ n, n < 2 ^ bitLen n := by
  intro n
  induction n using Nat.strong_induction_on with
  | _ n ih =>
    by_cases hn : n = 0
    · subst hn
      simp [bitLen_zero]
    · rw [bitLen_eq, if_neg hn, pow_succ]
      have := ih (n / 2) (Nat.div_lt_self (Nat.pos_of_ne_zero hn) one_lt_two)
      omega

theorem two_pow_le_bitLen : ∀ n, n ≠ 0 → 2 ^ (bitLen n - 1) ≤ n := by
  intro n
  induction n using Nat.strong_induction_on with
  | _ n ih =>
    intro hn
    rw [bitLen_eq, if_neg hn]
    by_cases h2 : n / 2 = 0
    · rw [h2, bitLen_zero]
      simpa using Nat.pos_of_ne_zero hn
    · have hb1 : 1 ≤ bitLen (n / 2) := by
        rcases Nat.eq_zero_or_pos (bitLen (n / 2)) with h | h
        · exact absurd ((bitLen_eq_zero_iff _).mp h) h2
        · omega
      have := ih (n / 2) (Nat.div_lt_self (Nat.pos_of_ne_zero hn) one_lt_two) h2
      have hexp : bitLen (n / 2) + 1 - 1 = (bitLen (n / 2) - 1) + 1 := by omega
      rw [hexp, pow_succ]
      omega

theorem bitLen_eq_of_bounds (n k : ℕ) (hk : 1 ≤ k)
    (h1 : 2 ^ (k - 1) ≤ n) (h2 : n < 2 ^ k) : bitLen n = k := by
  have hn : n ≠ 0 := by
    have : (0:ℕ) < 2 ^ (k - 1) := Nat.two_pow_pos _
    omega
  have hle : bitLen n ≤ k := by
    by_contra hc
    have h3 : k ≤ bitLen n - 1 := by omega
    have := le_trans (Nat.pow_le_pow_right (by norm_num) h3) (two_pow_le_bitLen n hn)
    omega
  have hge : k ≤ bitLen n := by
    by_contra hc
    have h3 : bitLen n ≤ k - 1 := by omega
    have := lt_of_lt_of_le (lt_two_pow_bitLen n) (Nat.pow_le_pow_right (by norm_num) h3)
    omega
  omega

theorem bitLen_shiftLeft (d s : ℕ) (hd : d ≠ 0) :
    bitLen (d <<< s) = bitLen d + s := by
  have hb1 : 1 ≤ bitLen d := by
    rcases Nat.eq_zero_or_pos (bitLen d) with h | h
    · exact absurd ((bitLen_eq_zero_iff _).mp h) hd
    · omega
  apply bitLen_eq_of_bounds
  · omega
  · rw [Nat.shiftLeft_eq]
    calc 2 ^ (bitLen d + s - 1) = 2 ^ (bitLen d - 1) * 2 ^ s := by
          rw [← pow_add]
          congr 1
          omega
    _ ≤ d * 2 ^ s :=
          Nat.mul_le_mul_right _ (two_pow_le_bitLen d hd)
  · rw [Nat.shiftLeft_eq, pow_add]
    exact (Nat.mul_lt_mul_right (Nat.two_pow_pos s)).mpr (lt_two_pow_bitLen d)

/-! ### gf: degrees and the long-division loop -/

theorem testBit_top_bitLen (n : ℕ) (hn : n ≠ 0) :
    n.testBit (bitLen n - 1) = true := by
  have h1 := two_pow_le_bitLen n hn
  have h2 := lt_two_pow_bitLen n
  have hb1 : 1 ≤ bitLen n := by
    rcases Nat.eq_zero_or_pos (bitLen n) with h | h
    · exact absurd ((bitLen_eq_zero_iff _).mp h) hn
    · omega
  rw [Nat.testBit_to_div_mod]
  have hdiv : n / 2 ^ (bitLen n - 1) = 1 := by
    have hup : n < 2 ^ (bitLen n - 1) * 2 := by
      have : 2 ^ (bitLen n - 1) * 2 = 2 ^ bitLen n := by
        rw [← pow_succ]
        congr 1
        omega
      omega
    have hlow : 1 ≤ n / 2 ^ (bitLen n - 1) :=
      (Nat.one_le_div_iff (Nat.two_pow_pos _)).mpr h1
    have hhigh : n / 2 ^ (bitLen n - 1) < 2 := Nat.div_lt_of_lt_mul hup
    omega
  rw [hdiv]
  decide

theorem testBit_ge_bitLen (n j : ℕ) (h : bitLen n ≤ j) : n.testBit j = false :=
  Nat.testBit_lt_two_pow
    (lt_of_lt_of_le (lt_two_pow_bitLen n) (Nat.pow_le_pow_right (by norm_num) h))

theorem degree_natToPoly (n : ℕ) (hn : n ≠ 0) :
    (natToPoly n).degree = ((bitLen n - 1 : ℕ) : WithBot ℕ) := by
  apply Polynomial.degree_eq_of_le_of_coeff_ne_zero
  · rw [Polynomial.degree_le_iff_coeff_zero]
    intro m hm
    have hmn : bitLen n ≤ m := by
      have hb1 : 1 ≤ bitLen n := by
        rcases Nat.eq_zero_or_pos (bitLen n) with h | h
        · exact absurd ((bitLen_eq_zero_iff _).mp h) hn
        · omega
      have h3 : (bitLen n - 1 : ℕ) < m := by exact_mod_cast hm
      omega
    rw [natToPoly_coeff, testBit_ge_bitLen n m hmn]
    simp
  · rw [natToPoly_coeff, testBit_top_bitLen n hn]
    simp

theorem degree_natToPoly_lt (a m : ℕ) (hm : m ≠ 0) (h : bitLen a < bitLen m) :
    (natToPoly a).degree < (natToPoly m).degree := by
  rw [degree_natToPoly m hm]
  by_cases ha : a = 0
  · subst ha
    rw [natToPoly_zero, Polynomial.degree_zero]
    exact WithBot.bot_lt_coe _
  · rw [degree_natToPoly a ha]
    have hb1 : 1 ≤ bitLen a := by
      rcases Nat.eq_zero_or_pos (bitLen a) with h2 | h2
      · exact absurd ((bitLen_eq_zero_iff _).mp h2) ha
      · omega
    have h3 : bitLen a - 1 < bitLen m - 1 := by omega
    exact_mod_cast h3

theorem testBit_two_pow_add_high (k a j : ℕ) (ha : a < 2 ^ k) (hj : k < j) :
    (2 ^ k + a).testBit j = false := by
  apply Nat.testBit_lt_two_pow
  calc 2 ^ k + a < 2 ^ k + 2 ^ k := by omega
  _ = 2 ^ (k + 1) := by rw [pow_succ]; omega
  _ ≤ 2 ^ j := Nat.pow_le_pow_right (by norm_num) (by omega)

theorem xor_two_pow_add (k a b : ℕ) (ha : a < 2 ^ k) (hb : b < 2 ^ k) :
    (2 ^ k + a) ^^^ (2 ^ k + b) = a ^^^ b := by
  apply Nat.eq_of_testBit_eq
  intro j
  rw [Nat.testBit_xor, Nat.testBit_xor]
  rcases lt_trichotomy j k with hj | hj | hj
  · rw [Nat.testBit_two_pow_add_gt hj, Nat.testBit_two_pow_add_gt hj]
  · subst hj
    rw [Nat.testBit_two_pow_add_eq, Nat.testBit_two_pow_add_eq,
      Nat.testBit_lt_two_pow ha, Nat.testBit_lt_two_pow hb]
    decide
  · rw [testBit_two_pow_add_high k a j ha hj, testBit_two_pow_add_high k b j hb hj,
      Nat.testBit_lt_two_pow (lt_of_lt_of_le ha (Nat.pow_le_pow_right (by norm_num) (le_of_lt hj))),
      Nat.testBit_lt_two_pow (lt_of_lt_of_le hb (Nat.pow_le_pow_right (by norm_num) (le_of_lt hj)))]

theorem xor_shift_lt (d r : ℕ) (hd : d ≠ 0) (hle : bitLen d ≤ bitLen r) :
    r ^^^ (d <<< (bitLen r - bitLen d)) < r := by
  have hbd1 : 1 ≤ bitLen d := by
    rcases Nat.eq_zero_or_pos (bitLen d) with h | h
    · exact absurd ((bitLen_eq_zero_iff _).mp h) hd
    · omega
  have hbr1 : 1 ≤ bitLen r := by omega
  have hr0 : r ≠ 0 := by
    intro h
    subst h
    rw [bitLen_zero] at hbr1
    omega
  have hx : bitLen (d <<< (bitLen r - bitLen d)) = bitLen r := by
    rw [bitLen_shiftLeft d _ hd]
    omega
  set x := d <<< (bitLen r - bitLen d) with hxdef
  have hx0 : x ≠ 0 := by
    intro h
    rw [h, bitLen_zero] at hx
    omega
  set k := bitLen r - 1 with hkdef
  have hrlow : 2 ^ k ≤ r := two_pow_le_bitLen r hr0
  have hrhigh : r < 2 ^ k * 2 := by
    have : 2 ^ k * 2 = 2 ^ bitLen r := by
      rw [← pow_succ]
      congr 1
      omega
    have := lt_two_pow_bitLen r
    omega
  have hxlow : 2 ^ k ≤ x := by
    have := two_pow_le_bitLen x hx0
    rw [hx] at this
    exact this
  have hxhigh : x < 2 ^ k * 2 := by
    have h2 : 2 ^ k * 2 = 2 ^ bitLen r := by
      rw [← pow_succ]
      congr 1
      omega
    have := lt_two_pow_bitLen x
    rw [hx] at this
    omega
  have hreq : r = 2 ^ k + (r - 2 ^ k) := by omega
  have hxeq : x = 2 ^ k + (x - 2 ^ k) := by omega
  have hcalc : r ^^^ x = (r - 2 ^ k) ^^^ (x - 2 ^ k) := by
    conv_lhs => rw [hreq, hxeq]
    exact xor_two_pow_add k _ _ (by omega) (by omega)
  rw [hcalc]
  have hfin : (r - 2 ^ k) ^^^ (x - 2 ^ k) < 2 ^ k :=
    Nat.xor_lt_two_pow (by omega) (by omega)
  omega

theorem poly_add_self (p : Polynomial (ZMod 2)) : p + p = 0 :=
  CharTwo.add_self_eq_zero p

theorem divModAux_step (d q r : ℕ) (f : ℕ) :
    divModAux (f + 1) d q r =
      if bitLen d ≤ bitLen r ∧ d ≠ 0 then
        divModAux f d (q ^^^ (1 <<< (bitLen r - bitLen d)))
          (r ^^^ (d <<< (bitLen r - bitLen d)))
      else (q, r) := rfl

theorem divModAux_fuel (d : ℕ) (hd : d ≠ 0) :
    ∀ (f₁ : ℕ), ∀ (f₂ q r : ℕ), r < f₁ → r < f₂ →
      divModAux f₁ d q r = divModAux f₂ d q r := by
  intro f₁
  induction f₁ with
  | zero => intro f₂ q r h1 _; omega
  | succ u ih =>
    intro f₂ q r h1 h2
    rcases f₂ with _ | f₂
    · omega
    · rw [divModAux_step, divModAux_step]
      by_cases hc : bitLen d ≤ bitLen r ∧ d ≠ 0
      · rw [if_pos hc, if_pos hc]
        have hlt := xor_shift_lt d r hd hc.1
        exact ih (f₂ + 1 - 1) _ _ (by omega) (by omega)
      · rw [if_neg hc, if_neg hc]

theorem divModAux_spec (d : ℕ) (hd : d ≠ 0) :
    ∀ (r q : ℕ),
      natToPoly (divModAux (r + 1) d q r).1 * natToPoly d +
          natToPoly (divModAux (r + 1) d q r).2 =
        natToPoly q * natToPoly d + natToPoly r ∧
      bitLen (divModAux (r + 1) d q r).2 < bitLen d := by
  intro r
  induction r using Nat.strong_induction_on with
  | _ r ih =>
    intro q
    by_cases hc : bitLen d ≤ bitLen r ∧ d ≠ 0
    · rw [divModAux_step, if_pos hc]
      have hlt := xor_shift_lt d r hd hc.1
      set q2 := q ^^^ (1 <<< (bitLen r - bitLen d)) with hq2
      set r2 := r ^^^ (d <<< (bitLen r - bitLen d)) with hr2
      have hfuel : divModAux r d q2 r2 = divModAux (r2 + 1) d q2 r2 :=
        divModAux_fuel d hd r (r2 + 1) q2 r2 (by omega) (by omega)
      rw [hfuel]
      rcases ih r2 (by omega) q2 with ⟨heq, hbnd⟩
      refine ⟨?_, hbnd⟩
      rw [heq]
      have hq2p : natToPoly q2 = natToPoly q + Polynomial.X ^ (bitLen r - bitLen d) := by
        rw [hq2, natToPoly_xor, natToPoly_shiftLeft, natToPoly_one, one_mul]
      have hr2p : natToPoly r2 =
          natToPoly r + natToPoly d * Polynomial.X ^ (bitLen r - bitLen d) := by
        rw [hr2, natToPoly_xor, natToPoly_shiftLeft]
      rw [hq2p, hr2p]
      have hz : natToPoly d * Polynomial.X ^ (bitLen r - bitLen d) +
          natToPoly d * Polynomial.X ^ (bitLen r - bitLen d) = 0 := poly_add_self _
      linear_combination hz
    · rw [divModAux_step, if_neg hc]
      refine ⟨rfl, ?_⟩
      have hnle : ¬ bitLen d ≤ bitLen r := by
        intro h
        exact hc ⟨h, hd⟩
      show bitLen r < bitLen d
      omega

theorem polyDivMod_eq (a b : ℕ) (hb : b ≠ 0) :
    natToPoly (polyDiv a b) * natToPoly b + natToPoly (polyMod a b) = natToPoly a ∧
    bitLen (polyMod a b) < bitLen b := by
  rcases divModAux_spec b hb a 0 with ⟨h1, h2⟩
  rw [natToPoly_zero, zero_mul, zero_add] at h1
  exact ⟨h1, h2⟩

theorem natToPoly_polyMod (a b : ℕ) (hb : b ≠ 0) :
    natToPoly (polyMod a b) = natToPoly a + natToPoly (polyDiv a b) * natToPoly b := by
  have h := (polyDivMod_eq a b hb).1
  have h2 := poly_add_self (natToPoly (polyDiv a b) * natToPoly b)
  linear_combination h - h2

theorem xor_clmul_polyDiv (r rn : ℕ) (hrn : rn ≠ 0) :
    r ^^^ clmul (polyDiv r rn) rn = polyMod r rn := by
  apply natToPoly_inj
  rw [natToPoly_xor, natToPoly_clmul, natToPoly_polyMod r rn hrn]

theorem polyMod_lt (a b : ℕ) (hb : b ≠ 0) : polyMod a b < b := by
  have h2 := (polyDivMod_eq a b hb).2
  have h3 := lt_two_pow_bitLen (polyMod a b)
  have h4 := two_pow_le_bitLen b hb
  have h5 : 2 ^ bitLen (polyMod a b) ≤ 2 ^ (bitLen b - 1) :=
    Nat.pow_le_pow_right (by norm_num) (by omega)
  omega

theorem bitLen_le_of_lt_two_pow (x k : ℕ) (h : x < 2 ^ k) : bitLen x ≤ k := by
  by_cases hx : x = 0
  · subst hx
    simp [bitLen_zero]
  · have h1 := two_pow_le_bitLen x hx
    have h2 : 1 ≤ bitLen x := by
      rcases Nat.eq_zero_or_pos (bitLen x) with h3 | h3
      · exact absurd ((bitLen_eq_zero_iff _).mp h3) hx
      · omega
    by_contra hk
    have h6 : 2 ^ k ≤ 2 ^ (bitLen x - 1) :=
      Nat.pow_le_pow_right (by norm_num) (by omega)
    omega

theorem invLoopAux_step (f t tn r rn : ℕ) :
    invLoopAux (f + 1) t tn r rn =
      if rn = 0 then (t, r)
      else invLoopAux f tn (t ^^^ clmul (polyDiv r rn) tn) rn
        (r ^^^ clmul (polyDiv r rn) rn) := rfl

theorem invLoopAux_fuel :
    ∀ (f₁ : ℕ), ∀ (f₂ t tn r rn : ℕ), rn < f₁ → rn < f₂ →
      invLoopAux f₁ t tn r rn = invLoopAux f₂ t tn r rn := by
  intro f₁
  induction f₁ with
  | zero => intro f₂ t tn r rn h1 _; omega
  | succ u ih =>
    intro f₂ t tn r rn h1 h2
    rcases f₂ with _ | f₂
    · omega
    · rw [invLoopAux_step, invLoopAux_step]
      by_cases hrn : rn = 0
      · rw [if_pos hrn, if_pos hrn]
      · rw [if_neg hrn, if_neg hrn]
        rw [xor_clmul_polyDiv r rn hrn]
        have hlt := polyMod_lt r rn hrn
        exact ih (f₂ + 1 - 1) tn _ rn _ (by omega) (by omega)

theorem invLoop_spec (m v : ℕ) :
    ∀ (rn : ℕ), ∀ (t tn r : ℕ),
      (∃ u, natToPoly r = u * natToPoly m + natToPoly t * natToPoly v) →
      (∃ u, natToPoly rn = u * natToPoly m + natToPoly tn * natToPoly v) →
      IsCoprime (natToPoly r) (natToPoly rn) →
      (∃ u, natToPoly (invLoopAux (rn + 1) t tn r rn).2 =
          u * natToPoly m + natToPoly (invLoopAux (rn + 1) t tn r rn).1 * natToPoly v) ∧
      IsUnit (natToPoly (invLoopAux (rn + 1) t tn r rn).2) := by
  intro rn
  induction rn using Nat.strong_induction_on with
  | _ rn ih =>
    intro t tn r h1 h2 h3
    by_cases hrn : rn = 0
    · subst hrn
      refine ⟨h1, ?_⟩
      rw [natToPoly_zero] at h3
      exact isCoprime_zero_right.mp h3
    · have hstep : invLoopAux (rn + 1) t tn r rn =
          invLoopAux rn tn (t ^^^ clmul (polyDiv r rn) tn) rn
            (r ^^^ clmul (polyDiv r rn) rn) := by
        rw [invLoopAux_step, if_neg hrn]
      rw [xor_clmul_polyDiv r rn hrn] at hstep
      have hlt : polyMod r rn < rn := polyMod_lt r rn hrn
      have hfuel : invLoopAux rn tn (t ^^^ clmul (polyDiv r rn) tn) rn (polyMod r rn) =
          invLoopAux (polyMod r rn + 1) tn (t ^^^ clmul (polyDiv r rn) tn) rn
            (polyMod r rn) :=
        invLoopAux_fuel rn (polyMod r rn + 1) tn _ rn _ (by omega) (by omega)
      rw [hstep, hfuel]
      have hB : ∃ u, natToPoly (polyMod r rn) =
          u * natToPoly m + natToPoly (t ^^^ clmul (polyDiv r rn) tn) * natToPoly v := by
        rcases h1 with ⟨u1, hu1⟩
        rcases h2 with ⟨u2, hu2⟩
        refine ⟨u1 + natToPoly (polyDiv r rn) * u2, ?_⟩
        rw [natToPoly_polyMod r rn hrn, natToPoly_xor, natToPoly_clmul, hu1, hu2]
        ring
      have hC : IsCoprime (natToPoly rn) (natToPoly (polyMod r rn)) := by
        rw [natToPoly_polyMod r rn hrn]
        have h5 := h3.symm
        have h6 := h5.add_mul_right_right (natToPoly (polyDiv r rn))
        exact h6
      exact ih (polyMod r rn) hlt tn (t ^^^ clmul (polyDiv r rn) tn) rn h2 hB hC

theorem natToPoly_surj (p : Polynomial (ZMod 2)) : ∃ n, natToPoly n = p := by
  induction p using Polynomial.recOnHorner with
  | M0 => exact ⟨0, natToPoly_zero⟩
  | MC p a h0 ha ih =>
    rcases ih with ⟨n, rfl⟩
    refine ⟨n ^^^ 1, ?_⟩
    have h1 : ∀ b : ZMod 2, b ≠ 0 → b = 1 := by decide
    rw [natToPoly_xor, natToPoly_one, h1 a ha, Polynomial.C_1]
  | MX p hp ih =>
    rcases ih with ⟨n, rfl⟩
    refine ⟨2 * n, ?_⟩
    rw [natToPoly_two_mul]
    ring

theorem natPolyIrreducible_irreducible (m : ℕ) (hm : NatPolyIrreducible m) :
    Irreducible (natToPoly m) := by
  obtain ⟨hdeg, hfac⟩ := hm
  have hm0 : m ≠ 0 := by
    intro h
    subst h
    rw [bitLen_zero] at hdeg
    omega
  constructor
  · intro hu
    have hd := degree_natToPoly m hm0
    have hz := Polynomial.degree_eq_zero_of_isUnit hu
    rw [hd] at hz
    have h2 : (bitLen m - 1 : ℕ) = 0 := by exact_mod_cast hz
    omega
  · intro a b hab
    obtain ⟨x, rfl⟩ := natToPoly_surj a
    obtain ⟨y, rfl⟩ := natToPoly_surj b
    have hmp : natToPoly m ≠ 0 := by
      intro h
      exact hm0 ((natToPoly_eq_zero_iff m).mp h)
    have hx0 : x ≠ 0 := by
      rintro rfl
      rw [natToPoly_zero, zero_mul] at hab
      exact hmp hab
    have hy0 : y ≠ 0 := by
      rintro rfl
      rw [natToPoly_zero, mul_zero] at hab
      exact hmp hab
    have hxy : clmul x y = m := by
      apply natToPoly_inj
      rw [natToPoly_clmul]
      exact hab.symm
    have hxdvd : natToPoly x ∣ natToPoly m := ⟨natToPoly y, hab⟩
    have hydvd : natToPoly y ∣ natToPoly m := ⟨natToPoly x, by rw [hab]; ring⟩
    have hbx : bitLen x ≤ bitLen m := by
      have hdx := Polynomial.degree_le_of_dvd hxdvd hmp
      rw [degree_natToPoly x hx0, degree_natToPoly m hm0] at hdx
      have h3 : (bitLen x - 1 : ℕ) ≤ bitLen m - 1 := by exact_mod_cast hdx
      have h4 : 1 ≤ bitLen x := by
        rcases Nat.eq_zero_or_pos (bitLen x) with h5 | h5
        · exact absurd ((bitLen_eq_zero_iff _).mp h5) hx0
        · omega
      omega
    have hby : bitLen y ≤ bitLen m := by
      have hdy := Polynomial.degree_le_of_dvd hydvd hmp
      rw [degree_natToPoly y hy0, degree_natToPoly m hm0] at hdy
      have h3 : (bitLen y - 1 : ℕ) ≤ bitLen m - 1 := by exact_mod_cast hdy
      have h4 : 1 ≤ bitLen y := by
        rcases Nat.eq_zero_or_pos (bitLen y) with h5 | h5
        · exact absurd ((bitLen_eq_zero_iff _).mp h5) hy0
        · omega
      omega
    have hxb : x < 2 ^ bitLen m :=
      lt_of_lt_of_le (lt_two_pow_bitLen x) (Nat.pow_le_pow_right (by norm_num) hbx)
    have hyb : y < 2 ^ bitLen m :=
      lt_of_lt_of_le (lt_two_pow_bitLen y) (Nat.pow_le_pow_right (by norm_num) hby)
    rcases hfac x hxb y hyb hxy with h | h
    · left
      rw [h, natToPoly_one]
      exact isUnit_one
    · right
      rw [h, natToPoly_one]
      exact isUnit_one

theorem eq_one_of_congr_one (m g : ℕ) (w : Polynomial (ZMod 2))
    (hm0 : m ≠ 0) (hdeg : 2 ≤ bitLen m) (hb : bitLen g < bitLen m)
    (hgw : natToPoly g = 1 + w * natToPoly m) : g = 1 := by
  have hdm := degree_natToPoly m hm0
  have hdm0 : (0 : WithBot ℕ) < (natToPoly m).degree := by
    rw [hdm]
    exact_mod_cast (show 0 < bitLen m - 1 by omega)
  have hdg : (natToPoly g).degree < (natToPoly m).degree :=
    degree_natToPoly_lt g m hm0 hb
  have heq : natToPoly g - 1 = w * natToPoly m := by linear_combination hgw
  have hle : (natToPoly g - 1).degree < (natToPoly m).degree := by
    apply lt_of_le_of_lt (Polynomial.degree_sub_le _ _)
    apply max_lt hdg
    rw [Polynomial.degree_one]
    exact hdm0
  have hw : w = 0 := by
    by_contra hw0
    rw [heq, Polynomial.degree_mul] at hle
    have h0w : (0 : WithBot ℕ) ≤ w.degree := Polynomial.zero_le_degree_iff.mpr hw0
    have h2 : (natToPoly m).degree ≤ w.degree + (natToPoly m).degree :=
      le_add_of_nonneg_left h0w
    exact absurd (lt_of_le_of_lt h2 hle) (lt_irrefl _)
  rw [hw, zero_mul, add_zero, ← natToPoly_one] at hgw
  exact natToPoly_inj hgw

/-- C3: `ModularBinaryPolynomial.__invert__` is a correct field inverse.
For an irreducible modulus `m` over GF(2) — as each canonical per-width
modulus of `gf.py` is — inverting the zero element fails with
`NotInvertible` (embedded as `none`), and every non-zero reduced field
element `x` (a bit-field of degree below that of `m`, i.e.
`x < 2 ^ (bitLen m - 1)`) is invertible: `__invert__` succeeds with some
`t` and `x * t = 1` in the field (`gfMul`, multiplication followed by
reduction mod `m`). -/
theorem gf_inverse (m : ℕ) (hm : NatPolyIrreducible m) :
    gfInv 0 m = none ∧
    ∀ x, x ≠ 0 → x < 2 ^ (bitLen m - 1) →
      ∃ t, gfInv x m = some t ∧ gfMul x t m = 1 := by
  have hdeg : 2 ≤ bitLen m := hm.1
  have hm0 : m ≠ 0 := by
    intro h
    subst h
    rw [bitLen_zero] at hdeg
    omega
  have hm1 : m ≠ 1 := by
    intro h
    subst h
    have h1 : bitLen 1 = 1 := rfl
    omega
  constructor
  · show (if (invLoopAux 1 0 1 m 0).2 ≠ 1 then none
        else some (polyMod (invLoopAux 1 0 1 m 0).1 m)) = none
    have h0 : invLoopAux 1 0 1 m 0 = (0, m) := rfl
    rw [h0]
    exact if_pos hm1
  · intro x hx0 hxlt
    have hirr := natPolyIrreducible_irreducible m hm
    have hbx : bitLen x ≤ bitLen m - 1 := bitLen_le_of_lt_two_pow x _ hxlt
    have hbxm : bitLen x < bitLen m := by omega
    have hxp0 : natToPoly x ≠ 0 := by
      intro h
      exact hx0 ((natToPoly_eq_zero_iff x).mp h)
    have hnd : ¬ natToPoly m ∣ natToPoly x := by
      intro hdvd
      have h1 := Polynomial.degree_le_of_dvd hdvd hxp0
      have h2 := degree_natToPoly_lt x m hm0 hbxm
      exact absurd h1 (not_le.mpr h2)
    have hcop : IsCoprime (natToPoly m) (natToPoly x) :=
      hirr.coprime_iff_not_dvd.mpr hnd
    have hspec := invLoop_spec m x x 0 1 m
      ⟨1, by rw [natToPoly_zero]; ring⟩
      ⟨0, by rw [natToPoly_one]; ring⟩
      hcop
    rcases hspec with ⟨⟨u, hu⟩, hUnit⟩
    have hp2 : (invLoopAux (x + 1) 0 1 m x).2 = 1 := by
      rcases Polynomial.isUnit_iff.mp hUnit with ⟨r, hr, hCr⟩
      have h1 : ∀ b : ZMod 2, IsUnit b → b = 1 := by decide
      rw [h1 r hr, Polynomial.C_1] at hCr
      apply natToPoly_inj
      rw [natToPoly_one]
      exact hCr.symm
    have hinv : gfInv x m = some (polyMod (invLoopAux (x + 1) 0 1 m x).1 m) := by
      show (if (invLoopAux (x + 1) 0 1 m x).2 ≠ 1 then none
          else some (polyMod (invLoopAux (x + 1) 0 1 m x).1 m)) = _
      rw [if_neg (not_not_intro hp2)]
    refine ⟨polyMod (invLoopAux (x + 1) 0 1 m x).1 m, hinv, ?_⟩
    have e1 : natToPoly (gfMul x (polyMod (invLoopAux (x + 1) 0 1 m x).1 m) m) =
        natToPoly (clmul x (polyMod (invLoopAux (x + 1) 0 1 m x).1 m)) +
          natToPoly (polyDiv (clmul x (polyMod (invLoopAux (x + 1) 0 1 m x).1 m)) m) *
            natToPoly m :=
      natToPoly_polyMod _ m hm0
    have e2 := natToPoly_clmul x (polyMod (invLoopAux (x + 1) 0 1 m x).1 m)
    have e3 : natToPoly (polyMod (invLoopAux (x + 1) 0 1 m x).1 m) =
        natToPoly (invLoopAux (x + 1) 0 1 m x).1 +
          natToPoly (polyDiv (invLoopAux (x + 1) 0 1 m x).1 m) * natToPoly m :=
      natToPoly_polyMod _ m hm0
    have e4 : (1 : Polynomial (ZMod 2)) =
        u * natToPoly m + natToPoly (invLoopAux (x + 1) 0 1 m x).1 * natToPoly x := by
      have e5 := hu
      rw [hp2, natToPoly_one] at e5
      exact e5
    have hgw : natToPoly (gfMul x (polyMod (invLoopAux (x + 1) 0 1 m x).1 m) m) =
        1 + (u + natToPoly x * natToPoly (polyDiv (invLoopAux (x + 1) 0 1 m x).1 m) +
            natToPoly (polyDiv (clmul x (polyMod (invLoopAux (x + 1) 0 1 m x).1 m)) m)) *
          natToPoly m := by
      rw [e1, e2, e3]
      linear_combination -e4 - poly_add_self (u * natToPoly m)
    have hbg : bitLen (gfMul x (polyMod (invLoopAux (x + 1) 0 1 m x).1 m) m) < bitLen m :=
      (polyDivMod_eq (clmul x (polyMod (invLoopAux (x + 1) 0 1 m x).1 m)) m hm0).2
    exact eq_one_of_congr_one m _ _ hm0 hdeg hbg hgw

/-- C3 witness: for the canonical GF(2^3) modulus `x^3 + x + 1` (bit-field
11), zero is `NotInvertible` and the concrete non-zero element 2 has a
successful inverse with product 1. -/
theorem gf_inverse_witness :
    NatPolyIrreducible 11 ∧ (2 : ℕ) ≠ 0 ∧ (2 : ℕ) < 2 ^ (bitLen 11 - 1) ∧
    gfInv 0 11 = none ∧ ∃ t, gfInv 2 11 = some t ∧ gfMul 2 t 11 = 1 := by
  have h := gf_inverse 11 (by decide)
  exact ⟨by decide, by decide, by decide, h.1, h.2 2 (by decide) (by decide)⟩

section C1Interp

variable {F : Type} [Field F] [DecidableEq F]

theorem listToPoly_foldl (l : List F) :
    ∀ p : Polynomial F,
      l.foldl (fun q c => q * Polynomial.X + Polynomial.C c) p =
        p * Polynomial.X ^ l.length + listToPoly l := by
  induction l with
  | nil => intro p; simp [listToPoly]
  | cons c l ih =>
    intro p
    have h1 : listToPoly (c :: l) =
        l.foldl (fun q k => q * Polynomial.X + Polynomial.C k)
          (0 * Polynomial.X + Polynomial.C c) := rfl
    show l.foldl (fun q k => q * Polynomial.X + Polynomial.C k)
        (p * Polynomial.X + Polynomial.C c) = _
    rw [ih (p * Polynomial.X + Polynomial.C c), h1,
      ih (0 * Polynomial.X + Polynomial.C c)]
    simp only [List.length_cons]
    ring

theorem listToPoly_nil : listToPoly ([] : List F) = 0 := rfl

theorem listToPoly_cons (c : F) (l : List F) :
    listToPoly (c :: l) = Polynomial.C c * Polynomial.X ^ l.length + listToPoly l := by
  have h1 : listToPoly (c :: l) =
      l.foldl (fun q k => q * Polynomial.X + Polynomial.C k)
        (0 * Polynomial.X + Polynomial.C c) := rfl
  rw [h1, listToPoly_foldl]
  ring

theorem degree_listToPoly_lt (l : List F) :
    (listToPoly l).degree < (l.length : WithBot ℕ) := by
  induction l with
  | nil =>
    rw [listToPoly_nil, Polynomial.degree_zero]
    exact WithBot.bot_lt_coe _
  | cons c l ih =>
    rw [listToPoly_cons]
    apply lt_of_le_of_lt (Polynomial.degree_add_le _ _)
    apply max_lt
    · apply lt_of_le_of_lt (Polynomial.degree_C_mul_X_pow_le l.length c)
      exact_mod_cast Nat.lt_succ_self l.length
    · apply lt_trans ih
      exact_mod_cast Nat.lt_succ_self l.length

theorem ffEval_horner (x : F) :
    ∀ (l : List F) (q : Polynomial F) (a : F), q.eval x = a →
      (l.foldl (fun qq c => qq * Polynomial.X + Polynomial.C c) q).eval x =
        l.foldl (fun acc c => acc * x + c) a := by
  intro l
  induction l with
  | nil => intro q a h; exact h
  | cons c l ih =>
    intro q a h
    exact ih (q * Polynomial.X + Polynomial.C c) (a * x + c) (by simp [h])

theorem ffEval_eq_eval (p : List F) (x : F) :
    ffEval p x = (listToPoly p).eval x := by
  match p with
  | [] => simp [ffEval, listToPoly_nil]
  | c :: cs =>
    have h1 : listToPoly (c :: cs) =
        cs.foldl (fun q k => q * Polynomial.X + Polynomial.C k)
          (0 * Polynomial.X + Polynomial.C c) := rfl
    rw [h1, ffEval_horner x cs (0 * Polynomial.X + Polynomial.C c) c (by simp)]
    rfl

theorem listToPoly_inj_of_length (a : List F) :
    ∀ b : List F, a.length = b.length → listToPoly a = listToPoly b → a = b := by
  induction a with
  | nil =>
    intro b hl _
    exact (List.eq_nil_of_length_eq_zero hl.symm).symm
  | cons c l ih =>
    intro b hl heq
    rcases b with _ | ⟨c2, l2⟩
    · exact absurd hl (by simp)
    · have hll : l.length = l2.length := by simpa using hl
      rw [listToPoly_cons, listToPoly_cons, ← hll] at heq
      have hc : c = c2 := by
        have h1 := congrArg (fun q => Polynomial.coeff q l.length) heq
        simp only [Polynomial.coeff_add, Polynomial.coeff_C_mul,
          Polynomial.coeff_X_pow, if_pos rfl, mul_one] at h1
        rw [Polynomial.coeff_eq_zero_of_degree_lt (degree_listToPoly_lt l),
          Polynomial.coeff_eq_zero_of_degree_lt (hll ▸ degree_listToPoly_lt l2)] at h1
        simpa using h1
      have hrest : listToPoly l = listToPoly l2 := by
        rw [hc] at heq
        exact add_left_cancel heq
      rw [hc, ih l2 hll hrest]

theorem listToPoly_zipWith_add (a : List F) :
    ∀ b : List F, a.length = b.length →
      listToPoly (List.zipWith (fun u v => u + v) a b) = listToPoly a + listToPoly b := by
  induction a with
  | nil => intro b hl; rw [(List.eq_nil_of_length_eq_zero hl.symm)]; simp [listToPoly_nil]
  | cons c l ih =>
    intro b hl
    rcases b with _ | ⟨c2, l2⟩
    · exact absurd hl (by simp)
    · have hll : l.length = l2.length := by simpa using hl
      rw [List.zipWith_cons_cons, listToPoly_cons, listToPoly_cons, listToPoly_cons,
        ih l2 hll, List.length_zipWith, ← hll, min_self, map_add]
      ring

end C1Interp

section C1Interp2

variable {F : Type} [Field F] [DecidableEq F]

theorem ffAdd_length_eq (a b : List F) (h : a.length = b.length) :
    (ffAdd a b).length = a.length := by
  rw [ffAdd]
  have hgt : ¬ (b.length > a.length) := by omega
  simp only [if_neg hgt]
  by_cases hb : b.length = 0
  · rw [if_pos hb]
    simp
    omega
  · rw [if_neg hb]
    simp [← h]

theorem listToPoly_ffAdd (a b : List F) (h : a.length = b.length) :
    listToPoly (ffAdd a b) = listToPoly a + listToPoly b := by
  rw [ffAdd]
  have hgt : ¬ (b.length > a.length) := by omega
  simp only [if_neg hgt]
  by_cases hb : b.length = 0
  · have ha0 : a = [] := List.eq_nil_of_length_eq_zero (by omega)
    have hb0 : b = [] := List.eq_nil_of_length_eq_zero hb
    rw [if_pos hb, ha0, hb0, listToPoly_nil]
    simp
  · rw [if_neg hb]
    have h0 : a.length - b.length = 0 := by omega
    rw [h0, List.take_zero, List.drop_zero, List.nil_append]
    exact listToPoly_zipWith_add a b h

theorem ffMul_length (r : F) (p : List F) : (ffMul r p).length = p.length := by
  simp [ffMul]

theorem listToPoly_ffMul (r : F) (p : List F) :
    listToPoly (ffMul r p) = Polynomial.C r * listToPoly p := by
  induction p with
  | nil => simp [ffMul, listToPoly_nil]
  | cons c l ih =>
    have h1 : ffMul r (c :: l) = (r * c) :: ffMul r l := rfl
    rw [h1, listToPoly_cons, listToPoly_cons, ih, ffMul_length, map_mul]
    ring

theorem mulLinearAux_length (xj : F) :
    ∀ (cs : List F) (last : F), (mulLinearAux xj cs last).length = cs.length + 1 := by
  intro cs
  induction cs with
  | nil => intro last; rfl
  | cons co cs ih =>
    intro last
    show (mulLinearAux xj cs (-xj * co)).length + 1 = cs.length + 1 + 1
    rw [ih (-xj * co)]

theorem listToPoly_mulLinearAux (xj : F) :
    ∀ (cs : List F) (last : F),
      listToPoly (mulLinearAux xj cs last) =
        Polynomial.C last * Polynomial.X ^ cs.length +
          listToPoly cs * (Polynomial.X - Polynomial.C xj) := by
  intro cs
  induction cs with
  | nil =>
    intro last
    show listToPoly [last] = _
    rw [listToPoly_cons, listToPoly_nil]
    simp
  | cons co cs ih =>
    intro last
    show listToPoly ((last + co) :: mulLinearAux xj cs (-xj * co)) = _
    rw [listToPoly_cons, mulLinearAux_length, ih (-xj * co), listToPoly_cons,
      map_add, map_mul, map_neg]
    simp only [List.length_cons]
    ring

theorem listToPoly_mulLinear (xj : F) (old : List F) :
    listToPoly (mulLinear xj old) = listToPoly old * (Polynomial.X - Polynomial.C xj) := by
  rw [mulLinear, listToPoly_mulLinearAux]
  simp

theorem mulLinear_length (xj : F) (old : List F) :
    (mulLinear xj old).length = old.length + 1 := mulLinearAux_length xj old 0

theorem foldl_mulLinear_length :
    ∀ (others : List (F × F)) (init : List F),
      (others.foldl (fun old q => mulLinear q.1 old) init).length =
        init.length + others.length := by
  intro others
  induction others with
  | nil => intro init; rfl
  | cons q others ih =>
    intro init
    show (others.foldl (fun old p => mulLinear p.1 old) (mulLinear q.1 init)).length = _
    rw [ih (mulLinear q.1 init), mulLinear_length]
    simp
    omega

theorem listToPoly_foldl_mulLinear :
    ∀ (others : List (F × F)) (init : List F),
      listToPoly (others.foldl (fun old q => mulLinear q.1 old) init) =
        listToPoly init *
          (others.map (fun q => Polynomial.X - Polynomial.C q.1)).prod := by
  intro others
  induction others with
  | nil => intro init; simp
  | cons q others ih =>
    intro init
    show listToPoly (others.foldl (fun old p => mulLinear p.1 old) (mulLinear q.1 init)) = _
    rw [ih (mulLinear q.1 init), listToPoly_mulLinear, List.map_cons, List.prod_cons]
    ring

theorem foldl_mul_eq_prod (t : F) :
    ∀ (l : List (F × F)) (a : F),
      l.foldl (fun acc q => acc * (t - q.1)) a = a * (l.map (fun q => t - q.1)).prod := by
  intro l
  induction l with
  | nil => intro a; simp
  | cons q l ih =>
    intro a
    show l.foldl (fun acc p => acc * (t - p.1)) (a * (t - q.1)) = _
    rw [ih (a * (t - q.1)), List.map_cons, List.prod_cons]
    ring

theorem basisPoly_length (pt : F × F) (pts : List (F × F)) :
    (basisPoly pt pts).length =
      (pts.filter (fun q => decide (q.1 ≠ pt.1))).length + 1 := by
  rw [basisPoly]
  rw [foldl_mulLinear_length]
  simp
  omega

theorem listToPoly_basisPoly (pt : F × F) (pts : List (F × F)) :
    listToPoly (basisPoly pt pts) =
      Polynomial.C (pt.2 /
          ((pts.filter (fun q => decide (q.1 ≠ pt.1))).map (fun q => pt.1 - q.1)).prod) *
        ((pts.filter (fun q => decide (q.1 ≠ pt.1))).map
          (fun q => Polynomial.X - Polynomial.C q.1)).prod := by
  rw [basisPoly]
  rw [listToPoly_foldl_mulLinear, foldl_mul_eq_prod pt.1 _ 1, one_mul,
    listToPoly_cons, listToPoly_nil]
  simp

end C1Interp2

section C1Interp3

variable {F : Type} [Field F] [DecidableEq F]

theorem eval_basisPoly_self (pt : F × F) (pts : List (F × F)) :
    (listToPoly (basisPoly pt pts)).eval pt.1 = pt.2 := by
  rw [listToPoly_basisPoly]
  rw [Polynomial.eval_mul, Polynomial.eval_C, Polynomial.eval_list_prod, List.map_map]
  have hmap : (List.map (Polynomial.eval pt.1 ∘ fun q => Polynomial.X - Polynomial.C q.1)
      (pts.filter (fun q => decide (q.1 ≠ pt.1)))) =
      (pts.filter (fun q => decide (q.1 ≠ pt.1))).map (fun q => pt.1 - q.1) := by
    apply List.map_congr_left
    intro q _
    simp
  rw [hmap]
  apply div_mul_cancel₀
  apply List.prod_ne_zero
  intro hmem
  rcases List.mem_map.mp hmem with ⟨q, hq, hq0⟩
  have hne : q.1 ≠ pt.1 := by
    have h2 := (List.mem_filter.mp hq).2
    simpa using h2
  have h3 : q.1 = pt.1 := by
    have h5 := sub_eq_zero.mp hq0
    exact h5.symm
  exact hne h3

theorem eval_basisPoly_other (pt q0 : F × F) (pts : List (F × F))
    (hq : q0 ∈ pts) (hne : q0.1 ≠ pt.1) :
    (listToPoly (basisPoly pt pts)).eval q0.1 = 0 := by
  rw [listToPoly_basisPoly]
  rw [Polynomial.eval_mul, Polynomial.eval_list_prod, List.map_map]
  have h0 : (0 : F) ∈ (List.map (Polynomial.eval q0.1 ∘ fun q => Polynomial.X - Polynomial.C q.1)
      (pts.filter (fun q => decide (q.1 ≠ pt.1)))) := by
    apply List.mem_map.mpr
    refine ⟨q0, List.mem_filter.mpr ⟨hq, by simpa using hne⟩, ?_⟩
    simp
  rw [List.prod_eq_zero h0, mul_zero]

theorem foldl_ffAdd_spec :
    ∀ (bs : List (List F)) (b : List F) (L : ℕ), b.length = L →
      (∀ x ∈ bs, x.length = L) →
      listToPoly (bs.foldl ffAdd b) = listToPoly b + (bs.map listToPoly).sum ∧
      (bs.foldl ffAdd b).length = L := by
  intro bs
  induction bs with
  | nil =>
    intro b L hb _
    simp [hb]
  | cons x bs ih =>
    intro b L hb hx
    have hxL : x.length = L := hx x (List.mem_cons_self x bs)
    have hab : b.length = x.length := by rw [hb, hxL]
    have h1 : (ffAdd b x).length = L := by rw [ffAdd_length_eq b x hab, hb]
    have h2 := ih (ffAdd b x) L h1 (fun y hy => hx y (List.mem_cons_of_mem x hy))
    refine ⟨?_, h2.2⟩
    rw [List.foldl_cons, h2.1, listToPoly_ffAdd b x hab, List.map_cons, List.sum_cons]
    ring

theorem fromPoints_spec (pts : List (F × F)) (L : ℕ) (hne : pts ≠ [])
    (hlen : ∀ p ∈ pts, (basisPoly p pts).length = L) :
    listToPoly (fromPoints pts) =
      (pts.map (fun p => listToPoly (basisPoly p pts))).sum ∧
    (fromPoints pts).length = L := by
  rcases pts with _ | ⟨p, rest⟩
  · exact absurd rfl hne
  · have h1 : fromPoints (p :: rest) =
        (rest.map (fun q => basisPoly q (p :: rest))).foldl ffAdd (basisPoly p (p :: rest)) := rfl
    rw [h1]
    have h2 := foldl_ffAdd_spec (rest.map (fun q => basisPoly q (p :: rest)))
      (basisPoly p (p :: rest)) L (hlen p (List.mem_cons_self p rest)) ?hx
    case hx =>
      intro y hy
      rcases List.mem_map.mp hy with ⟨q, hq, rfl⟩
      exact hlen q (List.mem_cons_of_mem p hq)
    refine ⟨?_, h2.2⟩
    rw [h2.1, List.map_cons, List.sum_cons, List.map_map]
    rfl

theorem filter_fst_ne_length (pts : List (F × F)) (hnd : (pts.map Prod.fst).Nodup) :
    ∀ p ∈ pts, (pts.filter (fun q => decide (q.1 ≠ p.1))).length + 1 = pts.length := by
  induction pts with
  | nil => intro p hp; exact absurd hp (List.not_mem_nil p)
  | cons a rest ih =>
    intro p hp
    rw [List.map_cons, List.nodup_cons] at hnd
    rcases List.mem_cons.mp hp with heq | hp2
    · rw [List.filter_cons]
      have hcond : (decide (a.1 ≠ p.1)) = false := by
        rw [heq]
        simp
      rw [hcond, if_neg (by simp)]
      have hall : rest.filter (fun r => decide (r.1 ≠ p.1)) = rest := by
        apply List.filter_eq_self.mpr
        intro b hb
        have hbne : b.1 ≠ p.1 := by
          intro h
          apply hnd.1
          rw [heq] at h
          rw [← h]
          exact List.mem_map_of_mem Prod.fst hb
        simpa using hbne
      rw [hall]
      simp
    · have hap : a.1 ≠ p.1 := by
        intro h
        apply hnd.1
        rw [h]
        exact List.mem_map_of_mem Prod.fst hp2
      rw [List.filter_cons]
      have hcond : (decide (a.1 ≠ p.1)) = true := by simpa using hap
      rw [hcond, if_pos rfl]
      have h3 := ih hnd.2 p hp2
      simp only [List.length_cons]
      omega

theorem sum_eval_single (x : F) (y : F) (g : (F × F) → Polynomial F) :
    ∀ (l : List (F × F)) (p : F × F), (l.map Prod.fst).Nodup → p ∈ l → p.1 = x →
      (g p).eval x = y →
      (∀ q ∈ l, q.1 ≠ x → (g q).eval x = 0) →
      (l.map (fun q => (g q).eval x)).sum = y := by
  intro l
  induction l with
  | nil => intro p _ hp; exact absurd hp (List.not_mem_nil p)
  | cons a rest ih =>
    intro p hnd hp hpx hgp hzero
    rw [List.map_cons, List.nodup_cons] at hnd
    rw [List.map_cons, List.sum_cons]
    rcases List.mem_cons.mp hp with heq | hp2
    · have hga : (g a).eval x = y := by rw [← heq]; exact hgp
      rw [hga]
      have hrest : (rest.map (fun r => (g r).eval x)).sum = 0 := by
        apply List.sum_eq_zero
        intro b hb
        rcases List.mem_map.mp hb with ⟨r, hr, rfl⟩
        apply hzero r (List.mem_cons_of_mem a hr)
        intro hrx
        apply hnd.1
        have h5 : a.1 = r.1 := by rw [← heq, hpx, hrx]
        rw [h5]
        exact List.mem_map_of_mem Prod.fst hr
      rw [hrest, add_zero]
    · have hax : a.1 ≠ x := by
        intro h
        apply hnd.1
        rw [h, ← hpx]
        exact List.mem_map_of_mem Prod.fst hp2
      rw [hzero a (List.mem_cons_self a rest) hax, zero_add]
      exact ih p hnd.2 hp2 hpx hgp (fun r hr => hzero r (List.mem_cons_of_mem a hr))

end C1Interp3

section C1Interp4

variable {F : Type} [Field F] [DecidableEq F]

theorem fromPoints_interpolates (pl : List F) (pts : List (F × F))
    (hne : pts ≠ []) (hnd : (pts.map Prod.fst).Nodup)
    (hlen : pts.length = pl.length)
    (hval : ∀ p ∈ pts, ffEval pl p.1 = p.2) :
    fromPoints pts = pl := by
  have hbl : ∀ p ∈ pts, (basisPoly p pts).length = pl.length := by
    intro p hp
    rw [basisPoly_length, filter_fst_ne_length pts hnd p hp, hlen]
  have hspec := fromPoints_spec pts pl.length hne hbl
  have heval : ∀ xx ∈ (pts.map Prod.fst).toFinset,
      Polynomial.eval xx (listToPoly (fromPoints pts)) =
        Polynomial.eval xx (listToPoly pl) := by
    intro xx hxx
    rcases List.mem_map.mp (List.mem_toFinset.mp hxx) with ⟨p, hp, rfl⟩
    rw [hspec.1]
    have h1 : Polynomial.eval p.1 ((pts.map (fun q => listToPoly (basisPoly q pts))).sum) =
        ((pts.map (fun q => listToPoly (basisPoly q pts))).map (Polynomial.eval p.1)).sum := by
      rw [← Polynomial.coe_evalRingHom]
      exact map_list_sum (Polynomial.evalRingHom p.1) _
    rw [h1, List.map_map]
    have hmap : (Polynomial.eval p.1 ∘ fun q => listToPoly (basisPoly q pts)) =
        fun q => (listToPoly (basisPoly q pts)).eval p.1 := rfl
    rw [hmap]
    have hsum := sum_eval_single p.1 p.2 (fun q => listToPoly (basisPoly q pts)) pts p hnd hp
      rfl (eval_basisPoly_self p pts)
      (fun q hq hqne => eval_basisPoly_other q p pts hp (Ne.symm hqne))
    rw [hsum, ← ffEval_eq_eval, hval p hp]
  have hcard : (pts.map Prod.fst).toFinset.card = pl.length := by
    rw [List.toFinset_card_of_nodup hnd, List.length_map, hlen]
  have hdeg1 : (listToPoly (fromPoints pts)).degree <
      (((pts.map Prod.fst).toFinset.card : ℕ) : WithBot ℕ) := by
    rw [hcard, ← hspec.2]
    exact degree_listToPoly_lt (fromPoints pts)
  have hdeg2 : (listToPoly pl).degree <
      (((pts.map Prod.fst).toFinset.card : ℕ) : WithBot ℕ) := by
    rw [hcard]
    exact degree_listToPoly_lt pl
  have hpoly := Polynomial.eq_of_degrees_lt_of_eval_finset_eq
    ((pts.map Prod.fst).toFinset) hdeg1 hdeg2 heval
  exact listToPoly_inj_of_length (fromPoints pts) pl (by rw [hspec.2]) hpoly

end C1Interp4

theorem zipWith_map_map {α β γ δ : Type} (f : β → γ → δ) (g : α → β) (h : α → γ) :
    ∀ l : List α, List.zipWith f (l.map g) (l.map h) = l.map (fun x => f (g x) (h x)) := by
  intro l
  induction l with
  | nil => rfl
  | cons a l ih => simp [ih]

theorem filter_eq_singleton_of_iff :
    ∀ (l : List ℕ) (j : ℕ) (p : ℕ → Bool), l.Nodup → j ∈ l →
      (∀ x ∈ l, p x = true ↔ x = j) → l.filter p = [j] := by
  intro l
  induction l with
  | nil => intro j p _ hj _; exact absurd hj (List.not_mem_nil j)
  | cons a l ih =>
    intro j p hnd hj hp
    rw [List.nodup_cons] at hnd
    rw [List.filter_cons]
    rcases List.mem_cons.mp hj with heq | hj2
    · have hpa : p a = true := (hp a (List.mem_cons_self a l)).mpr heq.symm
      rw [hpa, if_pos rfl]
      have htail : l.filter p = [] := by
        apply List.filter_eq_nil.mpr
        intro x hx hpx
        have hxj := (hp x (List.mem_cons_of_mem a hx)).mp hpx
        apply hnd.1
        rw [← heq, ← hxj]
        exact hx
      rw [htail, heq]
    · have hpa : p a = false := by
        rcases hb : p a with _ | _
        · rfl
        · have ha := (hp a (List.mem_cons_self a l)).mp hb
          exact absurd (ha ▸ hj2) hnd.1
      rw [hpa, if_neg (by simp)]
      exact ih j p hnd.2 hj2 (fun x hx => hp x (List.mem_cons_of_mem a hx))

section C1Verify

variable {F : Type} [Field F] [DecidableEq F] {B : Type} [DecidableEq B]
variable (iota : ℕ → F) (hashPair : F → F → B) (hashList : List B → F)

theorem matchesFrom_map_range (y z : F) (c : List F) (W : ℕ → B) :
    ∀ (m x0 : ℕ),
      matchesFrom iota hashPair y z c ((List.range m).map (fun i => W (x0 + i))) x0 =
        ((List.range m).map (fun i => x0 + i)).filter
          (fun x => decide (W x = hashPair y (ffEval c (iota x) - z))) := by
  intro m
  induction m with
  | zero => intro x0; rfl
  | succ m ih =>
    intro x0
    rw [List.range_succ_eq_map, List.map_cons, List.map_cons, List.map_map, List.map_map]
    have hc1 : ((fun i => W (x0 + i)) ∘ Nat.succ) = (fun i => W ((x0 + 1) + i)) := by
      funext i
      simp only [Function.comp_apply]
      congr 1
      omega
    have hc2 : ((fun i => x0 + i) ∘ Nat.succ) = (fun i => (x0 + 1) + i) := by
      funext i
      simp only [Function.comp_apply]
      omega
    rw [hc1, hc2]
    show (if W (x0 + 0) = hashPair y (ffEval c (iota x0) - z) then [x0] else []) ++
        matchesFrom iota hashPair y z c ((List.range m).map (fun i => W ((x0 + 1) + i)))
          (x0 + 1) = _
    rw [ih (x0 + 1), List.filter_cons]
    have hx00 : x0 + 0 = x0 := by omega
    rw [hx00]
    by_cases hc : W x0 = hashPair y (ffEval c (iota x0) - z)
    · rw [if_pos hc, if_pos (by simpa using hc)]
      rfl
    · rw [if_neg hc, if_neg (by simpa using hc)]
      rfl

theorem recoverLoop_all_accept (v : List B) (c : List F) (Y : ℕ → F) :
    ∀ (l : List ℕ) (good : List (F × F)) (bad : List F),
      (∀ j ∈ l, shamirVerify iota hashPair hashList (Y j) v c = iota j) →
      (∀ j ∈ l, iota j ≠ 0) →
      (∀ j ∈ l, ((iota j : F), Y j) ∉ good) →
      (l.map (fun j => ((iota j : F), Y j))).Nodup →
      good.length + l.length ≤ c.length →
      recoverLoop iota hashPair hashList v c (l.map Y) good bad =
        (good ++ l.map (fun j => (iota j, Y j)), bad) := by
  intro l
  induction l with
  | nil => intro good bad _ _ _ _ _; simp [recoverLoop]
  | cons j l ih =>
    intro good bad hver hnz hmem hnd hlen
    rw [List.map_cons]
    rw [show recoverLoop iota hashPair hashList v c (Y j :: l.map Y) good bad =
        (let x := shamirVerify iota hashPair hashList (Y j) v c
         let p := if x = 0 then (good, bad ++ [Y j])
                  else (insertPair good (x, Y j), bad)
         if p.1.length = c.length then p
         else recoverLoop iota hashPair hashList v c (l.map Y) p.1 p.2) from rfl]
    simp only [hver j (List.mem_cons_self j l)]
    rw [if_neg (hnz j (List.mem_cons_self j l))]
    rw [show insertPair good (iota j, Y j) = good ++ [(iota j, Y j)] from
      if_neg (hmem j (List.mem_cons_self j l))]
    rw [List.map_cons, List.nodup_cons] at hnd
    by_cases hstop : (good ++ [(iota j, Y j)]).length = c.length
    · rw [if_pos hstop]
      have hl0 : l = [] := by
        rw [List.length_append, List.length_singleton] at hstop
        have := hlen
        simp only [List.length_cons] at this
        exact List.eq_nil_of_length_eq_zero (by omega)
      subst hl0
      simp
    · rw [if_neg hstop]
      have hres := ih (good ++ [(iota j, Y j)]) bad
        (fun i hi => hver i (List.mem_cons_of_mem j hi))
        (fun i hi => hnz i (List.mem_cons_of_mem j hi))
        ?mem hnd.2 ?len
      case mem =>
        intro i hi hcontra
        rcases List.mem_append.mp hcontra with h | h
        · exact hmem i (List.mem_cons_of_mem j hi) h
        · rw [List.mem_singleton] at h
          apply hnd.1
          rw [← h]
          exact List.mem_map_of_mem _ hi
      case len =>
        rw [List.length_append, List.length_singleton]
        simp only [List.length_cons] at hlen
        omega
      rw [hres]
      simp

end C1Verify

theorem getD_map_range {F : Type} [Field F] (h : ℕ → F) (n i : ℕ) (hi : i < n) (d : F) :
    ((List.range n).map h).getD i d = h i := by
  rw [List.getD_eq_getElem _ _ (by simpa using hi), List.getElem_map, List.getElem_range]

theorem getD_concat_length {F : Type} [Field F] (l : List F) (a : F) (d : F) :
    (l ++ [a]).getD l.length d = a := by
  rw [List.getD_eq_getElem _ _ (by simp)]
  simp

theorem final_map_getD {F : Type} [Field F] (secret rsT : List F) (k : ℕ)
    (hs1 : 1 ≤ secret.length) (hs2 : secret.length ≤ 2)
    (hlen : secret.length - 1 + rsT.length + 1 = k) :
    ((k - 1) :: (if 1 < secret.length then [0] else [])).map
      (fun i => (secret.drop 1 ++ rsT ++ secret.take 1).getD i 0) = secret := by
  rcases secret with _ | ⟨m1, rest⟩
  · simp at hs1
  rcases rest with _ | ⟨m2, rest2⟩
  · simp only [List.length_cons, List.length_nil]
    rw [if_neg (by omega)]
    simp only [List.map_cons, List.map_nil]
    have h1 : ([m1] : List F).drop 1 = [] := rfl
    have h2 : ([m1] : List F).take 1 = [m1] := rfl
    rw [h1, h2, List.nil_append]
    have h3 : k - 1 = rsT.length := by
      simp only [List.length_cons, List.length_nil] at hlen
      omega
    rw [h3, getD_concat_length]
  · rcases rest2 with _ | ⟨m3, rest3⟩
    · simp only [List.length_cons, List.length_nil]
      rw [if_pos (by omega)]
      simp only [List.map_cons, List.map_nil]
      have h1 : ([m1, m2] : List F).drop 1 = [m2] := rfl
      have h2 : ([m1, m2] : List F).take 1 = [m1] := rfl
      rw [h1, h2]
      have h3 : k - 1 = ([m2] ++ rsT).length := by
        simp only [List.length_cons, List.length_nil, List.length_append] at hlen ⊢
        omega
      rw [h3, getD_concat_length]
      have h4 : (([m2] ++ rsT) ++ [m1]).getD 0 0 = m2 := rfl
      rw [h4]
    · exfalso
      simp only [List.length_cons] at hs2
      omega

section C1Main

variable {F : Type} [Field F] [DecidableEq F] {B : Type} [DecidableEq B]
variable (iota : ℕ → F) (hashPair : F → F → B) (hashList : List B → F)

/-- C1 (amended): the Shamir round trip holds under the side conditions the
claim leaves implicit.  With an injective share-hash `hashPair`, an
injective x-coordinate coercion `iota` on `0..n` sending 0 to the field's
zero, a secret of 1 or 2 elements, `|secret| ≤ k ≤ n`, the full SHAKE-256
stream `rs` of `2k - |secret|` derived coefficients, and — the hypothesis
the claim is missing — pairwise distinct share values (`out.1.Nodup`),
recovering from any `k`-subset of the shares (given by a duplicate-free
index list into `1..n`) returns exactly the original secret tuple.  The
distinctness hypothesis is necessary: with `k = 1 < n` every share equals
the constant secret, `verify` matches every x-coordinate and rejects the
share, and `recover` raises instead (see the counterexample). -/
theorem shamir_round_trip_amended
    (hhp : ∀ a b a2 b2, hashPair a b = hashPair a2 b2 → a = a2 ∧ b = b2)
    (h0 : iota 0 = 0)
    (secret : List F) (k n : ℕ) (rs : List F) (idx : List ℕ)
    (hiotainj : ∀ i j, i ≤ n → j ≤ n → iota i = iota j → i = j)
    (hs1 : 1 ≤ secret.length) (hs2 : secret.length ≤ 2)
    (hsk : secret.length ≤ k) (hkn : k ≤ n)
    (hrs : rs.length = 2 * k - secret.length)
    (hidxnd : idx.Nodup) (hidxlen : idx.length = k)
    (hidxmem : ∀ j ∈ idx, 1 ≤ j ∧ j ≤ n) :
    ∀ out, shamirSplit iota hashPair hashList secret k n rs = some out →
      out.1.Nodup →
      shamirRecover iota hashPair hashList
        (idx.map (fun j => out.1.getD (j - 1) 0)) out.2.1 out.2.2.1 out.2.2.2 =
        .ok secret := by
  intro out hsplit hnodup
  set f : List F := secret.drop 1 ++ rs.take (k - secret.length) ++ secret.take 1 with hfdef
  set g : List F := rs.drop (k - secret.length) with hgdef
  set FV : List F := (List.range n).map (fun i => ffEval f (iota (i + 1))) with hFVdef
  set GV : List F := (List.range n).map (fun i => ffEval g (iota (i + 1))) with hGVdef
  set V : List B := List.zipWith hashPair FV GV with hVdef
  set CC : List F := ffAdd (ffMul (hashList V) f) g with hCCdef
  set SS : List ℕ := (CC.length - 1) :: (if 1 < secret.length then [0] else []) with hSSdef
  have hsp : shamirSplit iota hashPair hashList secret k n rs = some (FV, V, CC, SS) := by
    rw [shamirSplit, if_neg (by omega), if_neg (by omega)]
  rw [hsp] at hsplit
  obtain rfl := Option.some.inj hsplit
  have hnodup2 : FV.Nodup := hnodup
  have hk1 : 1 ≤ k := le_trans hs1 hsk
  have hLf : f.length = k := by
    rw [hfdef]
    simp only [List.length_append, List.length_drop, List.length_take]
    omega
  have hLg : g.length = k := by
    rw [hgdef]
    simp only [List.length_drop]
    omega
  have hLc : CC.length = k := by
    rw [hCCdef, ffAdd_length_eq _ _ (by rw [ffMul_length, hLf, hLg]), ffMul_length, hLf]
  have hVmap : V = (List.range n).map
      (fun i => hashPair (ffEval f (iota (1 + i))) (ffEval g (iota (1 + i)))) := by
    rw [hVdef, hFVdef, hGVdef, zipWith_map_map]
    apply List.map_congr_left
    intro i _
    rw [Nat.add_comm i 1]
  have hceval : ∀ t, ffEval CC t = hashList V * ffEval f t + ffEval g t := by
    intro t
    rw [ffEval_eq_eval, hCCdef,
      listToPoly_ffAdd _ _ (by rw [ffMul_length, hLf, hLg]), listToPoly_ffMul,
      Polynomial.eval_add, Polynomial.eval_mul, Polynomial.eval_C,
      ← ffEval_eq_eval, ← ffEval_eq_eval]
  have hnodup3 : ((List.range n).map (fun i => ffEval f (iota (i + 1)))).Nodup := by
    rw [hFVdef] at hnodup2
    exact hnodup2
  have hinj0 := List.inj_on_of_nodup_map hnodup3
  have hfinj : ∀ x1 x2, 1 ≤ x1 → x1 ≤ n → 1 ≤ x2 → x2 ≤ n →
      ffEval f (iota x1) = ffEval f (iota x2) → x1 = x2 := by
    intro x1 x2 h1 h2 h3 h4 heq
    have e1 : x1 - 1 + 1 = x1 := by omega
    have e2 : x2 - 1 + 1 = x2 := by omega
    have h5 := hinj0 (List.mem_range.mpr (show x1 - 1 < n by omega))
      (List.mem_range.mpr (show x2 - 1 < n by omega)) (by rw [e1, e2]; exact heq)
    omega
  have hiotanz : ∀ j, 1 ≤ j → j ≤ n → iota j ≠ 0 := by
    intro j h1 h2 hz
    have h3 := hiotainj j 0 h2 (by omega) (by rw [hz, h0])
    omega
  have hverify : ∀ j, 1 ≤ j → j ≤ n →
      shamirVerify iota hashPair hashList (ffEval f (iota j)) V CC = iota j := by
    intro j hj1 hjn
    show iota (verifyAux iota hashPair (ffEval f (iota j))
      (hashList V * ffEval f (iota j)) CC V 1 0) = iota j
    rw [verifyAux_zero_eq iota hashPair (ffEval f (iota j))
      (hashList V * ffEval f (iota j)) CC V 1 (le_refl 1)]
    have hmr := matchesFrom_map_range iota hashPair (ffEval f (iota j))
      (hashList V * ffEval f (iota j)) CC
      (fun x => hashPair (ffEval f (iota x)) (ffEval g (iota x))) n 1
    have hm : matchesFrom iota hashPair (ffEval f (iota j))
        (hashList V * ffEval f (iota j)) CC V 1 = [j] := by
      nth_rewrite 2 [hVmap]
      rw [hmr]
      apply filter_eq_singleton_of_iff
      · exact List.Nodup.map_on (fun a _ b _ hab => by omega) (List.nodup_range n)
      · exact List.mem_map.mpr ⟨j - 1, List.mem_range.mpr (by omega), by omega⟩
      · intro x hx
        rcases List.mem_map.mp hx with ⟨i, hi, rfl⟩
        have hi2 := List.mem_range.mp hi
        rw [decide_eq_true_eq]
        constructor
        · intro ht
          rcases hhp _ _ _ _ ht with ⟨hfeq, _⟩
          exact hfinj (1 + i) j (by omega) (by omega) hj1 hjn hfeq
        · intro hxj
          subst hxj
          rw [hceval]
          congr 1
          ring
    rw [hm]
  have hpairsnd : (idx.map (fun j => ((iota j : F), ffEval f (iota j)))).Nodup :=
    List.Nodup.map_on
      (fun j1 hj1 j2 hj2 heq => hiotainj j1 j2 (hidxmem j1 hj1).2 (hidxmem j2 hj2).2
        (congrArg Prod.fst heq)) hidxnd
  have hloop := recoverLoop_all_accept iota hashPair hashList V CC
    (fun j => ffEval f (iota j)) idx [] []
    (fun j hj => hverify j (hidxmem j hj).1 (hidxmem j hj).2)
    (fun j hj => hiotanz j (hidxmem j hj).1 (hidxmem j hj).2)
    (fun j hj => List.not_mem_nil _)
    hpairsnd
    (by simp only [List.length_nil, hidxlen, hLc]; omega)
  simp only [List.nil_append] at hloop
  have hshares : idx.map (fun j => FV.getD (j - 1) 0) =
      idx.map (fun j => ffEval f (iota j)) := by
    apply List.map_congr_left
    intro j hj
    rw [hFVdef, getD_map_range _ n (j - 1) (by have := hidxmem j hj; omega)]
    rw [show j - 1 + 1 = j from by have := hidxmem j hj; omega]
  have hfp : fromPoints (idx.map (fun j => ((iota j : F), ffEval f (iota j)))) = f := by
    apply fromPoints_interpolates
    · intro hcon
      have h5 : idx = [] := List.map_eq_nil_iff.mp hcon
      rw [h5] at hidxlen
      simp at hidxlen
      omega
    · rw [List.map_map]
      show (idx.map (fun j => iota j)).Nodup
      exact List.Nodup.map_on
        (fun j1 hj1 j2 hj2 heq => hiotainj j1 j2 (hidxmem j1 hj1).2 (hidxmem j2 hj2).2 heq)
        hidxnd
    · rw [List.length_map, hidxlen, hLf]
    · intro p hp
      rcases List.mem_map.mp hp with ⟨j, hj, rfl⟩
      rfl
  have hfinal : SS.map (fun i => f.getD i 0) = secret := by
    rw [hSSdef, hLc, hfdef]
    apply final_map_getD secret (rs.take (k - secret.length)) k hs1 hs2
    simp only [List.length_take]
    omega
  show shamirRecover iota hashPair hashList (idx.map (fun j => FV.getD (j - 1) 0))
      V CC SS = .ok secret
  rw [hshares]
  have hrecdef : shamirRecover iota hashPair hashList
      (idx.map (fun j => ffEval f (iota j))) V CC SS =
      (if (recoverLoop iota hashPair hashList V CC
            (idx.map (fun j => ffEval f (iota j))) [] []).1.length < CC.length
       then Except.error (recoverLoop iota hashPair hashList V CC
            (idx.map (fun j => ffEval f (iota j))) [] []).2
       else Except.ok (SS.map (fun i =>
          (fromPoints (recoverLoop iota hashPair hashList V CC
            (idx.map (fun j => ffEval f (iota j))) [] []).1).getD i 0))) := rfl
  rw [hrecdef, hloop]
  show (if (idx.map (fun j => ((iota j : F), ffEval f (iota j)))).length < CC.length
      then Except.error ([] : List F)
      else Except.ok (SS.map (fun i =>
        (fromPoints (idx.map (fun j => ((iota j : F), ffEval f (iota j))))).getD i 0))) =
      Except.ok secret
  rw [if_neg (by rw [List.length_map, hidxlen, hLc]; omega), hfp, hfinal]

end C1Main

/-- C1 counterexample: over GF(3) with injective pair-hash `Prod.mk`, take
`secret = (1,)`, `k = 1`, `n = 2` (the claim allows every
`|secret| ≤ k ≤ n`), coefficient stream `[0]`.  `split` succeeds and both
shares equal the secret `1`; but `verify` then matches BOTH x-coordinates
for the single-share subset `(1,)`, returns 0, and `recover` raises
`TooFewValidShares` (`.error [1]`) instead of returning the secret — the
spec's round-trip claim fails for `k = 1 < n`. -/
theorem shamir_round_trip_counterexample :
    shamirSplit (fun j => (j : ZMod 3)) Prod.mk (fun _ => (1 : ZMod 3)) [1] 1 2 [0] =
      some ([1, 1], [(1, 0), (1, 0)], [1], [0]) ∧
    shamirRecover (fun j => (j : ZMod 3)) Prod.mk (fun _ => (1 : ZMod 3))
      [1] [((1 : ZMod 3), (0 : ZMod 3)), (1, 0)] [1] [0] = .error [1] := by
  constructor
  · decide
  · rfl

/-- C1 witness: a full concrete round trip over GF(3) with `k = n = 2`,
`secret = (0,)`, distinct shares `(1, 2)`, recovered from the 2-subset of
both shares. -/
theorem shamir_round_trip_amended_witness :
    (∀ a b a2 b2 : ZMod 3, (a, b) = (a2, b2) → a = a2 ∧ b = b2) ∧
    ((0 : ℕ) : ZMod 3) = 0 ∧
    (∀ i j : ℕ, i ≤ 2 → j ≤ 2 → ((i : ZMod 3) = (j : ZMod 3)) → i = j) ∧
    shamirSplit (fun j => (j : ZMod 3)) Prod.mk (fun _ => (1 : ZMod 3)) [0] 2 2 [1, 0, 0] =
      some ([1, 2], [(1, 0), (2, 0)], [1, 0], [1]) ∧
    ([(1 : ZMod 3), 2]).Nodup ∧
    shamirRecover (fun j => (j : ZMod 3)) Prod.mk (fun _ => (1 : ZMod 3))
      (([1, 2] : List ℕ).map (fun j => ([(1 : ZMod 3), 2]).getD (j - 1) 0))
      [(1, 0), (2, 0)] [1, 0] [1] = .ok [0] := by
  have hiota : ∀ i j : ℕ, i ≤ 2 → j ≤ 2 → ((i : ZMod 3) = (j : ZMod 3)) → i = j := by
    intro i j hi hj h
    interval_cases i <;> interval_cases j <;> revert h <;> decide
  have hhp : ∀ a b a2 b2 : ZMod 3, (a, b) = (a2, b2) → a = a2 ∧ b = b2 := by decide
  have happ := shamir_round_trip_amended (fun j => (j : ZMod 3)) Prod.mk
    (fun _ => (1 : ZMod 3)) hhp (by decide) [0] 2 2 [1, 0, 0] [1, 2] hiota
    (by decide) (by decide) (by decide) (by decide) (by decide) (by decide)
    (by decide) (by decide)
    ([1, 2], [(1, 0), (2, 0)], [1, 0], [1]) (by decide) (by decide)
  exact ⟨hhp, by decide, hiota, by decide, by decide, happ⟩
